import Mathlib

/-!
# Verification of the image download/replace pipeline

Shallow embedding of `l2j/scripts/download_and_replace_images.py` and proofs
about the claims of its specification.

Python strings are modelled as Lean `String`/`List Char`; Python string
methods (`split`, `strip`, `join`, `startswith`, …) are defined below with
Python's semantics.  Python dicts (attribute maps of parsed `<img>` tags,
`url_to_dest`, `url_map`, the download result map, the on-disk cache) are
modelled as insertion-ordered association lists with first-match lookup and
update-in-place assignment, which matches Python dicts whose keys are unique.
External collaborators (the HTTP transport, the HTML parser, the
content-type-to-extension table, the filesystem) are passed in as explicit
oracle functions / state, and the `asyncio` effects of the source are made
observable: the embedded `fetch_with_retries` additionally reports how many
attempts were made and the argument of every `asyncio.sleep` call (in tenths
of a second, so `0.2 * (attempt + 1)` seconds is reported as the natural
number `2 * (attempt + 1)`), and the embedded `download_all` additionally
reports the list of URLs for which a network request was issued and the
resulting disk state.
-/

set_option maxRecDepth 40000

namespace ImgDl

/-! ## Python string primitives -/

/-- Python's whitespace test for `str.strip()` / `str.split()` (ASCII part). -/
def pyIsSpace (c : Char) : Bool :=
  c == ' ' || c == '\t' || c == '\n' || c == '\r' || c == Char.ofNat 11 || c == Char.ofNat 12

/-- Python `s.split(sep)` for a one-character separator, on char lists:
keeps empty chunks, `[[]]` on the empty string. -/
def splitOnC (sep : Char) : List Char → List (List Char)
  | [] => [[]]
  | c :: rest =>
    match splitOnC sep rest with
    | [] => [[c]]
    | h :: t => if c = sep then [] :: h :: t else (c :: h) :: t

/-- Python `s.strip()` on char lists. -/
def stripC (l : List Char) : List Char :=
  ((l.dropWhile pyIsSpace).reverse.dropWhile pyIsSpace).reverse

/-- Helper for `wordsC`, accumulating the current word reversed. -/
def wordsCAux : List Char → List Char → List (List Char)
  | acc, [] => if acc = [] then [] else [acc.reverse]
  | acc, c :: rest =>
    if pyIsSpace c then
      if acc = [] then wordsCAux [] rest else acc.reverse :: wordsCAux [] rest
    else wordsCAux (c :: acc) rest

/-- Python `s.split()` (no argument): split on whitespace runs, no empty parts. -/
def wordsC (l : List Char) : List (List Char) := wordsCAux [] l

/-- Python `sep.join(parts)` on char lists. -/
def joinSepC (sep : List Char) : List (List Char) → List Char
  | [] => []
  | [x] => x
  | x :: y :: rest => x ++ sep ++ joinSepC sep (y :: rest)

/-- `startsWithC l p`: `p` is an initial run of `l` (Python `l.startswith(p)`). -/
def startsWithC : List Char → List Char → Bool
  | _, [] => true
  | [], _ :: _ => false
  | c :: cs, p :: ps => c = p && startsWithC cs ps

/-- Python `l.endswith(p)`. -/
def endsWithC (l p : List Char) : Bool := startsWithC l.reverse p.reverse

/-- Index of the last occurrence of `c` in `l` (Python `l.rfind(c)`), if any. -/
def rfindIdx (c : Char) (l : List Char) : Option Nat :=
  match (l.reverse).findIdx? (· = c) with
  | some j => some (l.length - 1 - j)
  | none => none

/-- String wrappers for the char-list primitives. -/
def pySplit (s : String) (sep : Char) : List String := (splitOnC sep s.data).map String.mk

def pyStrip (s : String) : String := String.mk (stripC s.data)

def pyWords (s : String) : List String := (wordsC s.data).map String.mk

def pyJoin (sep : String) (l : List String) : String :=
  String.mk (joinSepC sep.data (l.map String.data))

def pyStartsWith (s p : String) : Bool := startsWithC s.data p.data

def pyEndsWith (s p : String) : Bool := endsWithC s.data p.data

/-- Truthiness of a Python value that is either a string or `None`
(`None` and `""` are falsy). -/
def opTruthy : Option String → Bool
  | some s => !(s == "")
  | none => false

/-! ## Ordered dictionaries (Python `dict` with unique keys) -/

/-- First-match lookup, Python `d.get(k)`. -/
def dget {α : Type} : List (String × α) → String → Option α
  | [], _ => none
  | (k, v) :: rest, key => if k = key then some v else dget rest key

/-- Python `d[k] = v`: update the existing binding in place, else append. -/
def dset {α : Type} : List (String × α) → String → α → List (String × α)
  | [], key, v => [(key, v)]
  | (k, w) :: rest, key, v =>
    if k = key then (key, v) :: rest else (k, w) :: dset rest key v

/-- Python `k in d`. -/
def dmem {α : Type} (d : List (String × α)) (k : String) : Bool := (dget d k).isSome

/-- Python `del d[k]` (first binding removed). -/
def ddel {α : Type} : List (String × α) → String → List (String × α)
  | [], _ => []
  | (k, w) :: rest, key => if k = key then rest else (k, w) :: ddel rest key

/-- Python `list(d.keys())`. -/
def dkeys {α : Type} (d : List (String × α)) : List String := d.map (·.1)

/-! ## SHA-256 (the `hashlib.sha256(...).hexdigest()` the source calls) -/

/-- 2^32, the modulus of 32-bit words. -/
def M32 : Nat := 4294967296

def rotr (n x : Nat) : Nat := (x >>> n) ||| ((x <<< (32 - n)) % M32)

def shaCh (x y z : Nat) : Nat := (x &&& y) ^^^ ((x ^^^ 4294967295) &&& z)

def shaMaj (x y z : Nat) : Nat := (x &&& y) ^^^ (x &&& z) ^^^ (y &&& z)

def bigSigma0 (x : Nat) : Nat := rotr 2 x ^^^ rotr 13 x ^^^ rotr 22 x

def bigSigma1 (x : Nat) : Nat := rotr 6 x ^^^ rotr 11 x ^^^ rotr 25 x

def smallSigma0 (x : Nat) : Nat := rotr 7 x ^^^ rotr 18 x ^^^ (x >>> 3)

def smallSigma1 (x : Nat) : Nat := rotr 17 x ^^^ rotr 19 x ^^^ (x >>> 10)

/-- The 64 SHA-256 round constants (FIPS 180-4). -/
def shaK : List Nat :=
  [1116352408, 1899447441, 3049323471, 3921009573, 961987163, 1508970993, 2453635748, 2870763221,
   3624381080, 310598401, 607225278, 1426881987, 1925078388, 2162078206, 2614888103, 3248222580,
   3835390401, 4022224774, 264347078, 604807628, 770255983, 1249150122, 1555081692, 1996064986,
   2554220882, 2821834349, 2952996808, 3210313671, 3336571891, 3584528711, 113926993, 338241895,
   666307205, 773529912, 1294757372, 1396182291, 1695183700, 1986661051, 2177026350, 2456956037,
   2730485921, 2820302411, 3259730800, 3345764771, 3516065817, 3600352804, 4094571909, 275423344,
   430227734, 506948616, 659060556, 883997877, 958139571, 1322822218, 1537002063, 1747873779,
   1955562222, 2024104815, 2227730452, 2361852424, 2428436474, 2756734187, 3204031479, 3329325298]

/-- The initial SHA-256 hash value (FIPS 180-4). -/
def shaH0 : List Nat :=
  [1779033703, 3144134277, 1013904242, 2773480762, 1359893119, 2600822924, 528734635, 1541459225]

/-- Big-endian bytes of `n`, width `w` bytes. -/
def beBytes (w n : Nat) : List Nat :=
  (List.range w).map (fun i => (n >>> (8 * (w - 1 - i))) &&& 255)

/-- SHA-256 message padding: append `0x80`, zeros to 56 mod 64, then the
64-bit big-endian bit length. -/
def padBytes (msg : List Nat) : List Nat :=
  let L := msg.length
  let padZeros := (55 + 64 - L % 64) % 64
  msg ++ 128 :: List.replicate padZeros 0 ++ beBytes 8 (8 * L)

/-- Parse a byte stream into big-endian 32-bit words. -/
def toWords : List Nat → List Nat
  | b0 :: b1 :: b2 :: b3 :: rest =>
      (((b0 <<< 24) ||| (b1 <<< 16) ||| (b2 <<< 8) ||| b3) % M32) :: toWords rest
  | _ => []

/-- The SHA-256 message schedule: extend 16 words to 64. -/
def schedule (m : List Nat) : List Nat :=
  (List.range 48).foldl (fun w _ =>
    let n := w.length
    w ++ [(smallSigma1 (w.getD (n - 2) 0) + w.getD (n - 7) 0 +
           smallSigma0 (w.getD (n - 15) 0) + w.getD (n - 16) 0) % M32]) m

/-- The eight working variables of SHA-256 compression. -/
structure ShaState where
  a : Nat
  b : Nat
  c : Nat
  d : Nat
  e : Nat
  f : Nat
  g : Nat
  h : Nat

/-- One SHA-256 round. -/
def roundStep (s : ShaState) (wk : Nat × Nat) : ShaState :=
  let t1 := (s.h + bigSigma1 s.e + shaCh s.e s.f s.g + wk.2 + wk.1) % M32
  let t2 := (bigSigma0 s.a + shaMaj s.a s.b s.c) % M32
  ⟨(t1 + t2) % M32, s.a, s.b, s.c, (s.d + t1) % M32, s.e, s.f, s.g⟩

/-- SHA-256 block compression. -/
def compress (h : List Nat) (block : List Nat) : List Nat :=
  let w := schedule block
  let s0 : ShaState := ⟨h.getD 0 0, h.getD 1 0, h.getD 2 0, h.getD 3 0,
                        h.getD 4 0, h.getD 5 0, h.getD 6 0, h.getD 7 0⟩
  let s := (w.zip shaK).foldl roundStep s0
  [(s0.a + s.a) % M32, (s0.b + s.b) % M32, (s0.c + s.c) % M32, (s0.d + s.d) % M32,
   (s0.e + s.e) % M32, (s0.f + s.f) % M32, (s0.g + s.g) % M32, (s0.h + s.h) % M32]

/-- Fold SHA-256 compression over the 16-word blocks of a padded message. -/
def sha256Blocks : List Nat → List Nat → List Nat
  | h, w0 :: w1 :: w2 :: w3 :: w4 :: w5 :: w6 :: w7 ::
       w8 :: w9 :: w10 :: w11 :: w12 :: w13 :: w14 :: w15 :: rest =>
      sha256Blocks (compress h [w0, w1, w2, w3, w4, w5, w6, w7,
                                w8, w9, w10, w11, w12, w13, w14, w15]) rest
  | h, _ => h

/-- SHA-256 of a byte list, as eight 32-bit words. -/
def sha256words (msg : List Nat) : List Nat :=
  sha256Blocks shaH0 (toWords (padBytes msg))

/-- UTF-8 encoding of one character (Python `str.encode("utf-8")`). -/
def utf8Bytes (c : Char) : List Nat :=
  let n := c.toNat
  if n < 128 then [n]
  else if n < 2048 then [192 + n / 64, 128 + n % 64]
  else if n < 65536 then [224 + n / 4096, 128 + (n / 64) % 64, 128 + n % 64]
  else [240 + n / 262144, 128 + (n / 4096) % 64, 128 + (n / 64) % 64, 128 + n % 64]

def strBytes (s : String) : List Nat := (s.data.map utf8Bytes).flatten

/-- Lowercase hex digit of a value below 16. -/
def hexChar (n : Nat) : Char := if n < 10 then Char.ofNat (48 + n) else Char.ofNat (87 + n)

def wordHexChars (w : Nat) : List Char :=
  (List.range 8).map (fun i => hexChar ((w >>> (4 * (7 - i))) &&& 15))

/-- The 64 characters of `hashlib.sha256(s.encode("utf-8")).hexdigest()`. -/
def sha256hexChars (s : String) : List Char :=
  ((sha256words (strBytes s)).map wordHexChars).flatten

/-- `short_hash` of the source: first `n` hex characters of the SHA-256 of `s`. -/
def short_hash (s : String) (n : Nat := 8) : String :=
  String.mk ((sha256hexChars s).take n)

/-! ## `pathlib` and `urllib.parse` models

These model the parts of Python's standard library the source uses:
`Path(...).name` / `.stem` / `.suffix` / `.with_suffix` on POSIX-style path
strings, and `urlparse(url).path`. -/

/-- `Path(p).name`: the last path component, with empty and `.` components
dropped (as `pathlib` does). -/
def pathNameC (l : List Char) : List Char :=
  ((splitOnC '/' l).filter (fun comp => comp ≠ [] ∧ comp ≠ ['.'])).getLastD []

def pyName (p : String) : String := String.mk (pathNameC p.data)

/-- `Path(p).suffix`: the extension of the final component; `pathlib` keeps it
only when the last dot of the name is at an index `i` with `0 < i < len - 1`. -/
def pySuffix (p : String) : String :=
  let n := pathNameC p.data
  match rfindIdx '.' n with
  | some i => if 0 < i ∧ i + 1 < n.length then String.mk (n.drop i) else ""
  | none => ""

/-- `Path(p).stem`: the final component without its suffix. -/
def pyStem (p : String) : String :=
  let n := pathNameC p.data
  match rfindIdx '.' n with
  | some i => if 0 < i ∧ i + 1 < n.length then String.mk (n.take i) else String.mk n
  | none => String.mk n

/-- `Path(p).with_suffix(ext)`: drop the current suffix (which sits at the very
end of the path string) and append `ext`. -/
def pyWithSuffix (p ext : String) : String :=
  String.mk (p.data.take (p.data.length - (pySuffix p).data.length)) ++ ext

/-- Characters allowed in a URL scheme by `urlparse`. -/
def isSchemeChar (c : Char) : Bool := c.isAlpha || c.isDigit || c == '+' || c == '-' || c == '.'

/-- Strip a leading `scheme:` as `urlparse` recognizes it. -/
def afterScheme (l : List Char) : List Char :=
  match l.findIdx? (· = ':') with
  | some i =>
    let pre := l.take i
    if pre ≠ [] ∧ (pre.headD ' ').isAlpha ∧ pre.all isSchemeChar then l.drop (i + 1) else l
  | none => l

/-- Strip a leading `netloc` (after `//`): it extends to the next `/`, `?` or `#`. -/
def dropNetloc (l : List Char) : List Char :=
  l.dropWhile (fun c => !(c == '/' || c == '?' || c == '#'))

/-- `urlparse(url).path` for the URL shapes this pipeline passes in. -/
def urlparse_path (url : String) : String :=
  let l1 := afterScheme url.data
  let l2 := if startsWithC l1 ['/', '/'] then dropNetloc (l1.drop 2) else l1
  String.mk (l2.takeWhile (fun c => !(c == '?' || c == '#')))

/-! ## Canonicalizer (source lines 54–87 and 218–222) -/

/-- `safe_filename_from_url` of the source. -/
def safe_filename_from_url (url : String) (hash_len : Nat := 8) : String :=
  let name := pyName (urlparse_path url)
  if name ≠ "" then
    let stem := pyStem name
    let ext := pySuffix name
    if ext ≠ "" then stem ++ "-" ++ short_hash url hash_len ++ ext
    else stem ++ "-" ++ short_hash url hash_len
  else short_hash url hash_len

/-- `ensure_ext` of the source; `guess` models `mimetypes.guess_extension`
(an external table). -/
def ensure_ext (path : String) (content_type : String) (guess : String → Option String) : String :=
  if pySuffix path ≠ "" then path
  else if content_type = "" then path
  else
    match guess (pyStrip ((pySplit content_type ';').headD "")) with
    | some ext => pyWithSuffix path ext
    | none => path

/-- `make_relative` of the source: `os.path.relpath(dest, start=json_dir)`.
All destination paths this pipeline builds are created by joining the JSON
file's directory with a relative `assets/<stem>/<fname>` string; we keep
paths relative to the JSON directory throughout, so `relpath` returns its
argument unchanged (and the separator is already `/`). -/
def make_relative (dest : String) : String := dest

/-- Protocol-relative normalization of `process_json_file`
(`if url.startswith("//"): url = "https:" + url`). -/
def canonUrl (url : String) : String :=
  if pyStartsWith url "//" then "https:" ++ url else url

/-- The scheme filter of `process_json_file`
(`url.startswith("http://") or url.startswith("https://")`). -/
def isHttpUrl (u : String) : Bool := pyStartsWith u "http://" || pyStartsWith u "https://"

/-! ## Image reference extraction and rewriting (source lines 89–147)

A parsed `<img>` element is its attribute dictionary. -/

abbrev Attrs := List (String × String)

/-- One step of the plain-attribute extraction loop. -/
def extractAttrStep (tag : Attrs) (acc : List (String × String)) (attr : String) :
    List (String × String) :=
  match dget tag attr with
  | some v => if v = "" then acc else acc ++ [(attr, v)]
  | none => acc

/-- One step of the srcset extraction loop: strip the candidate and take its
first whitespace-delimited token. -/
def extractSrcsetStep (acc : List (String × String)) (part : String) :
    List (String × String) :=
  let part := pyStrip part
  if part = "" then acc
  else
    match pyWords part with
    | [] => acc              -- unreachable: a stripped non-empty part has a first word
    | url :: _ => acc ++ [("srcset", url)]

/-- `extract_image_urls_from_tag`: the non-empty `src` / `data-src` /
`data-original` values, then one `("srcset", url)` entry per comma-separated
candidate (first whitespace-delimited token). -/
def extract_image_urls_from_tag (tag : Attrs) : List (String × String) :=
  let urls := ["src", "data-src", "data-original"].foldl (extractAttrStep tag) []
  match dget tag "srcset" with
  | some srcset =>
    if srcset = "" then urls
    else (pySplit srcset ',').foldl extractSrcsetStep urls
  | none => urls

/-- The srcset-rebuilding block of `replace_urls_in_tag` (source lines
118–134): split on commas, strip, substitute each candidate's first token
through `url_map` keeping `" ".join` of the remaining tokens as descriptor,
keep unresolved candidates as their (stripped) text, re-join with `", "`. -/
def srcsetStep (url_map : Attrs) (acc : List String) (part : String) : List String :=
  let part := pyStrip part
  if part = "" then acc
  else
    match pyWords part with
    | [] => acc              -- unreachable
    | url :: rest =>
      let descriptor := pyJoin " " rest
      match dget url_map url with
      | some mapped =>
        if mapped = "" then acc ++ [part]
        else acc ++ [pyStrip (mapped ++ " " ++ descriptor)]
      | none => acc ++ [part]

def rewrite_srcset (url_map : Attrs) (srcset : String) : String :=
  pyJoin ", " ((pySplit srcset ',').foldl (srcsetStep url_map) [])

/-- The lazy-load hint attributes the rewriter strips (source lines 136–144). -/
def lazy_attrs : List String :=
  ["data-src", "data-original", "data-lazy", "data-lazy-src", "data-lazy-srcset",
   "loading", "data-srcset"]

/-- `replace_urls_in_tag`: substitute the plain attributes (with the
`data-src`/`data-original` → `src` fallback exactly as written: it looks the
*already reassigned* attribute value up in `url_map` again), rebuild
`srcset`, then delete the lazy-load attributes. -/
def plainAttrStep (url_map : Attrs) (tag : Attrs) (attr : String) : Attrs :=
  let val := dget tag attr
  if opTruthy val then
    let mapped := val.bind (dget url_map)
    let tag := if opTruthy mapped then dset tag attr (mapped.getD "") else tag
    if (attr = "data-src" ∨ attr = "data-original") ∧ dget tag "src" = none then
      let mapped2 := (dget tag attr).bind (dget url_map)
      if opTruthy mapped2 then dset tag "src" (mapped2.getD "") else tag
    else tag
  else tag

def replace_urls_in_tag (tag : Attrs) (url_map : Attrs) : Attrs :=
  let tag := ["src", "data-src", "data-original"].foldl (plainAttrStep url_map) tag
  let tag :=
    match dget tag "srcset" with
    | some srcset => if srcset = "" then tag else dset tag "srcset" (rewrite_srcset url_map srcset)
    | none => tag
  lazy_attrs.foldl (fun tag a => if dmem tag a then ddel tag a else tag) tag

/-! ## Fetching and downloading (source lines 149–194)

The HTTP transport is an oracle `fetch : url → attempt number → result`;
the asyncio sleeps and the attempt count are made observable. -/

structure FetchResult where
  result : Option (List Nat × String)   -- (content bytes, content-type) on success
  attempts : Nat                        -- number of GET attempts actually made
  sleeps : List Nat                     -- asyncio.sleep arguments, in tenths of a second

/-- Attempts `attempt, attempt + 1, …` with `k` attempts remaining. -/
def fetchGo (fetch : Nat → Option (List Nat × String)) : Nat → Nat → FetchResult
  | _, 0 => ⟨none, 0, []⟩
  | attempt, k + 1 =>
    match fetch attempt with
    | some r => ⟨some r, 1, []⟩
    | none =>
      let rest := fetchGo fetch (attempt + 1) k
      ⟨rest.result, rest.attempts + 1, 2 * (attempt + 1) :: rest.sleeps⟩

/-- `fetch_with_retries`: `for attempt in range(retries + 1)`, returning the
first success, `None` when all attempts fail; after each failed attempt the
source sleeps `0.2 * (attempt + 1)` seconds (recorded here as
`2 * (attempt + 1)` tenths of a second). -/
def fetch_with_retries (fetch : Nat → Option (List Nat × String)) (retries : Nat) : FetchResult :=
  fetchGo fetch 0 (retries + 1)

/-- The on-disk cache: path ↦ size of the file at that path. -/
abbrev Disk := List (String × Nat)

structure DlState where
  out : List (String × Option String)   -- url ↦ saved path, or `None` on failure
  requests : List String                -- urls for which a network request was issued
  disk : Disk

/-- Code-point-lexicographic string order (Python `sorted` on `str`). -/
def leCharsC : List Char → List Char → Bool
  | [], _ => true
  | _ :: _, [] => false
  | c :: cs, d :: ds => if c = d then leCharsC cs ds else decide (c < d)

def insertSorted (a : String) : List String → List String
  | [] => [a]
  | b :: bs => if leCharsC a.data b.data then a :: b :: bs else b :: insertSorted a bs

/-- Python `sorted(urls)`. -/
def sortStrings (l : List String) : List String := l.foldr insertSorted []

/-- One `worker(u)` of `download_all` (source lines 169–189): serve from the
cache when the destination exists non-empty, otherwise fetch with retries and
write; a failed fetch or a failed write records `None` for the URL.
`writeOk` models whether `dest.write_bytes` succeeds. -/
def dl_worker (dest_map : List (String × String)) (retries : Nat)
    (fetch : String → Nat → Option (List Nat × String))
    (guess : String → Option String) (writeOk : String → Bool)
    (st : DlState) (u : String) : DlState :=
  let dest := (dget dest_map u).getD ""
  if (dget st.disk dest).getD 0 > 0 then
    { st with out := dset st.out u (some dest) }
  else
    let fr := fetch_with_retries (fetch u) retries
    let st := { st with requests := st.requests ++ [u] }
    match fr.result with
    | none => { st with out := dset st.out u none }
    | some (content, ctype) =>
      let dest_with_ext := ensure_ext dest ctype guess
      if writeOk dest_with_ext then
        { st with out := dset st.out u (some dest_with_ext),
                  disk := dset st.disk dest_with_ext content.length }
      else
        { st with out := dset st.out u none }

/-- `download_all`: one worker per URL of the (deduplicated) input set, in
sorted order; the coordinator gathers every worker before returning.  The
workers only suspend at network calls, and each URL's map entry is written by
its own worker alone, so running them in task order is faithful. -/
def download_all (urls : List String) (dest_map : List (String × String)) (retries : Nat)
    (fetch : String → Nat → Option (List Nat × String))
    (guess : String → Option String) (writeOk : String → Bool) (disk : Disk) : DlState :=
  (sortStrings urls).foldl (dl_worker dest_map retries fetch guess writeOk) ⟨[], [], disk⟩

/-! ## The per-file pipeline on parsed fragments (source lines 205–268) -/

/-- Destination assignment for a newly seen canonical URL (source lines
224–229, including the re-hash guard). -/
def destFor (assets_dir url : String) : String :=
  let fname := safe_filename_from_url url 8
  let dest := assets_dir ++ "/" ++ fname
  if ¬ (pyStem dest).data.contains '-' ∨ pyEndsWith (pyStem dest) (short_hash url 8) then dest
  else assets_dir ++ "/" ++ pyStem dest ++ "-" ++ short_hash url 8 ++ pySuffix dest

/-- URL collection across all fragments (source lines 209–230): for every
extracted reference, skip empty, canonicalize protocol-relative, keep only
http(s), and assign each *new* canonical URL its destination path. -/
def collectStep (assets_dir : String) (m : List (String × String)) (au : String × String) :
    List (String × String) :=
  let url := au.2
  if url = "" then m
  else
    let url := canonUrl url
    if ¬ isHttpUrl url then m
    else if dmem m url then m
    else m ++ [(url, destFor assets_dir url)]

def collectTag (assets_dir : String) (m : List (String × String)) (tag : Attrs) :
    List (String × String) :=
  (extract_image_urls_from_tag tag).foldl (collectStep assets_dir) m

def collectFrag (assets_dir : String) (m : List (String × String)) (tags : List Attrs) :
    List (String × String) :=
  tags.foldl (collectTag assets_dir) m

def collectUrls (assets_dir : String) (frags : List (List Attrs)) : List (String × String) :=
  frags.foldl (collectFrag assets_dir) []

structure Maps where
  url_map : List (String × String)
  failed : List (String × String)

/-- Build `url_map` / `failed` from the download outcome map (source lines
238–245): failures get reason `download_failed`, successes the saved path
relative to the JSON file's directory. -/
def buildStep (ms : Maps) (entry : String × Option String) : Maps :=
  match entry.2 with
  | none => { ms with failed := dset ms.failed entry.1 "download_failed" }
  | some saved => { ms with url_map := dset ms.url_map entry.1 (make_relative saved) }

def buildMaps (result : List (String × Option String)) : Maps :=
  result.foldl buildStep ⟨[], []⟩

/-- The per-element substitution map of the rewrite phase (source lines
249–259): `url_map.get(canonical) or url_map.get(raw)`, recorded under both
the raw and the canonical key when truthy. -/
def localStep (url_map : List (String × String)) (lm : Attrs) (au : String × String) : Attrs :=
  let url := au.2
  if url = "" then lm
  else
    let u := canonUrl url
    let mapped := if opTruthy (dget url_map u) then dget url_map u else dget url_map url
    match mapped with
    | some m => if m = "" then lm else dset (dset lm url m) u m
    | none => lm

def localMapForTag (url_map : List (String × String)) (tag : Attrs) : Attrs :=
  (extract_image_urls_from_tag tag).foldl (localStep url_map) []

/-- The rewrite step applied to each `<img>` element (source lines 249–261):
`replace_urls_in_tag` runs only when the element's local map is non-empty. -/
def rewriteTag (url_map : List (String × String)) (tag : Attrs) : Attrs :=
  let lm := localMapForTag url_map tag
  if lm = [] then tag else replace_urls_in_tag tag lm

structure ProcResult where
  url_to_dest : List (String × String)
  out : List (String × Option String)
  requests : List String
  disk : Disk
  url_map : List (String × String)
  failed : List (String × String)
  rewritten : List (List Attrs)

/-- The per-file pipeline of `process_json_file` on already-parsed fragments
(source lines 209–268): collect and deduplicate URLs, download the set of
keys, build the manifest maps, rewrite every element of every fragment.
When no downloadable URL was found the source returns early (no download,
no rewrite). -/
def process_frags (assets_dir : String) (frags : List (List Attrs)) (retries : Nat)
    (fetch : String → Nat → Option (List Nat × String))
    (guess : String → Option String) (writeOk : String → Bool) (disk : Disk) : ProcResult :=
  let url_to_dest := collectUrls assets_dir frags
  if url_to_dest = [] then ⟨[], [], [], disk, [], [], frags⟩
  else
    let dl := download_all (dkeys url_to_dest) url_to_dest retries fetch guess writeOk disk
    let ms := buildMaps dl.out
    ⟨url_to_dest, dl.out, dl.requests, dl.disk, ms.url_map, ms.failed,
     frags.map (fun tags => tags.map (rewriteTag ms.url_map))⟩

/-! ## JSON documents, the scanner and `set_by_path` (source lines 37–52) -/

/-- A JSON value as `json.loads` returns it: mappings (string keys, in
insertion order, unique), sequences, strings, and everything else
(numbers, booleans, `null`), which the scanner ignores. -/
inductive Json where
  | str : String → Json
  | obj : List (String × Json) → Json
  | arr : List Json → Json
  | other : Json

/-- One navigation step: a mapping key or a sequence index. -/
inductive PathStep where
  | key : String → PathStep
  | idx : Nat → PathStep
deriving DecidableEq

/-- Contiguous-subsequence containment (Python `pat in s`). -/
def containsSeq : List Char → List Char → Bool
  | [], pat => pat.isEmpty
  | l@(_ :: rest), pat => startsWithC l pat || containsSeq rest pat

/-- The scanner's hit test: `"<img" in obj.lower()`. -/
def hasImgMarker (s : String) : Bool := containsSeq (s.data.map Char.toLower) "<img".data

mutual
/-- `walk_and_collect_html`: depth-first walk collecting every string that
contains `<img` (case-insensitively) together with its access path.  The
source threads the path prefix downward, appending hits to a shared list; we
return the same hits in the same DFS order with root-relative paths built
bottom-up. -/
def walk_and_collect_html : Json → List (List PathStep × String)
  | .str s => if hasImgMarker s then [([], s)] else []
  | .obj fields => walkFields fields
  | .arr elems => walkElems 0 elems
  | .other => []

def walkFields : List (String × Json) → List (List PathStep × String)
  | [] => []
  | (k, v) :: rest =>
    (walk_and_collect_html v).map (fun h => (.key k :: h.1, h.2)) ++ walkFields rest

def walkElems : Nat → List Json → List (List PathStep × String)
  | _, [] => []
  | i, v :: rest =>
    (walk_and_collect_html v).map (fun h => (.idx i :: h.1, h.2)) ++ walkElems (i + 1) rest
end

/-- One navigation step `cur[p]` (read): `None` where Python raises
(`KeyError` for a missing or non-string dict key, `IndexError` out of range,
`TypeError` on a leaf). -/
def getChild : Json → PathStep → Option Json
  | .obj fields, .key k => dget fields k
  | .arr elems, .idx i => elems[i]?
  | _, _ => none

/-- One assignment step `cur[p] = v`: on a mapping this inserts or updates
the key; on a sequence it requires the index in range; on a leaf Python
raises. -/
def setChild : Json → PathStep → Json → Option Json
  | .obj fields, .key k, v => some (.obj (dset fields k v))
  | .arr elems, .idx i, v =>
    if i < elems.length then some (.arr (elems.set i v)) else none
  | _, _, _ => none

/-- Path navigation (the `cur = cur[p]` loop read-only, down to a node). -/
def getJson : Json → List PathStep → Option Json
  | j, [] => some j
  | j, p :: rest => (getChild j p).bind (fun c => getJson c rest)

/-- `set_by_path`: navigate `path[:-1]` from the root, then assign at
`path[-1]`.  Returns `none` exactly where the source raises: `path = []`
raises `IndexError` on `path[-1]`, and navigation or assignment steps that do
not resolve raise `KeyError`/`IndexError`/`TypeError`. -/
def set_by_path : Json → List PathStep → Json → Option Json
  | _, [], _ => none
  | j, [last], v => setChild j last v
  | j, p :: rest₁ :: rest₂, v =>
    match getChild j p with
    | none => none
    | some c =>
      match set_by_path c (rest₁ :: rest₂) v with
      | none => none
      | some c' => setChild j p c'

/-! ## `process_json_file` and `main_async` (source lines 196–301)

The HTML parser and serializer (BeautifulSoup) are external: `parseHtml`
models `BeautifulSoup(html).find_all("img")`, `render` models `str(soup)`
after the found elements were mutated.  `json.loads` is external too: a
file arrives as `Option Json`, `none` meaning the parse raised.  The dry-run
flag only skips the two writes at the end of the source and changes nothing
else, so it is not modelled. -/

/-- Outcome of one file's pipeline.  `errored` means an exception escaped
`process_json_file` and was caught and logged by `file_worker`'s
`try`/`except`; `skipped` means the source returned early (no `<img>` hits,
or no downloadable URLs) writing nothing; `done` carries the manifest that
is written and the rewritten document. -/
inductive FileResult where
  | errored : FileResult
  | skipped : FileResult
  | done : Maps → Json → FileResult

/-- Write each serialized fragment back at its recorded path, in hit order;
a failing `set_by_path` raises, which surfaces as `none`. -/
def applyRewrites : Json → List (List PathStep) → List String → Option Json
  | data, [], _ => some data
  | data, p :: ps, h :: hs => (set_by_path data p (.str h)).bind (fun d => applyRewrites d ps hs)
  | _, _ :: _, [] => none    -- unreachable: one rewritten fragment per hit

/-- `process_json_file` for one file with stem `stem`: parse, scan, process
the fragments, write every mutated fragment back, and report the manifest.
Paths are kept relative to the JSON file's directory, so the assets
directory is `assets/<stem>`. -/
def process_json_file (parseHtml : String → List Attrs) (render : List Attrs → String)
    (stem : String) (parsed : Option Json) (retries : Nat)
    (fetch : String → Nat → Option (List Nat × String))
    (guess : String → Option String) (writeOk : String → Bool)
    (disk : Disk) : FileResult × Disk :=
  match parsed with
  | none => (.errored, disk)
  | some data =>
    let hits := walk_and_collect_html data
    if hits = [] then (.skipped, disk)
    else
      let frags := hits.map (fun h => parseHtml h.2)
      let R := process_frags ("assets/" ++ stem) frags retries fetch guess writeOk disk
      if R.url_to_dest = [] then (.skipped, R.disk)
      else
        match applyRewrites data (hits.map (·.1)) (R.rewritten.map render) with
        | none => (.errored, R.disk)
        | some d => (.done ⟨R.url_map, R.failed⟩ d, R.disk)

/-- `main_async` over the discovered files, each given as
`(path, stem, parsed contents)`.  Every file pipeline runs inside
`file_worker`'s `try`/`except`, so a failure is a logged per-file result and
never aborts the run; distinct files write to the disjoint directories
`assets/<stem>` and `manifest/`, so the pipelines are independent and each is
modelled against the initial disk. -/
def main_async (parseHtml : String → List Attrs) (render : List Attrs → String)
    (files : List (String × String × Option Json)) (retries : Nat)
    (fetch : String → Nat → Option (List Nat × String))
    (guess : String → Option String) (writeOk : String → Bool)
    (disk : Disk) : List (String × FileResult) :=
  files.map (fun f =>
    (f.1, (process_json_file parseHtml render f.2.1 f.2.2 retries fetch guess writeOk disk).1))

/-! ## Dictionary lemmas -/

theorem dget_dset_self {α : Type} (d : List (String × α)) (k : String) (v : α) :
    dget (dset d k v) k = some v := by
  induction d with
  | nil => simp [dset, dget]
  | cons kv rest ih =>
    by_cases h : kv.1 = k
    · simp [dset, h, dget]
    · simp [dset, h, dget, ih]

theorem dget_dset_ne {α : Type} (d : List (String × α)) {k k' : String} (v : α)
    (h : k' ≠ k) : dget (dset d k v) k' = dget d k' := by
  induction d with
  | nil =>
    simp only [dset, dget]
    exact if_neg (fun hh : k = k' => h hh.symm)
  | cons kv rest ih =>
    simp only [dset]
    by_cases hk : kv.1 = k
    · rw [if_pos hk]
      simp only [dget]
      rw [if_neg (fun hh : k = k' => h hh.symm), if_neg (fun hh : kv.1 = k' => h (hk ▸ hh).symm)]
    · rw [if_neg hk]
      simp only [dget, ih]

theorem dget_mem {α : Type} {d : List (String × α)} {k : String} {v : α}
    (h : dget d k = some v) : (k, v) ∈ d := by
  induction d with
  | nil => simp [dget] at h
  | cons kv rest ih =>
    by_cases hk : kv.1 = k
    · simp only [dget, if_pos hk] at h
      obtain ⟨k0, v0⟩ := kv
      simp only at hk h
      injection h with h
      subst hk h
      exact List.mem_cons_self _ _
    · simp only [dget, if_neg hk] at h
      exact List.mem_cons_of_mem _ (ih h)

theorem mem_dkeys_iff {α : Type} (d : List (String × α)) (k : String) :
    k ∈ dkeys d ↔ (dget d k).isSome := by
  induction d with
  | nil => simp [dkeys, dget]
  | cons kv rest ih =>
    simp only [dkeys, List.map_cons, List.mem_cons, dget] at *
    by_cases hk : kv.1 = k
    · simp [hk]
    · rw [if_neg hk]
      constructor
      · rintro (h | h)
        · exact absurd h.symm hk
        · exact ih.mp h
      · intro h
        exact Or.inr (ih.mpr h)

theorem dget_eq_none {α : Type} {d : List (String × α)} {k : String}
    (h : ∀ kv ∈ d, kv.1 ≠ k) : dget d k = none := by
  induction d with
  | nil => rfl
  | cons kv rest ih =>
    simp only [dget, if_neg (h kv (List.mem_cons_self kv rest))]
    exact ih (fun kv' h' => h kv' (List.mem_cons_of_mem _ h'))

theorem dget_append {α : Type} (d d' : List (String × α)) (k : String) :
    dget (d ++ d') k = match dget d k with | some v => some v | none => dget d' k := by
  induction d with
  | nil => simp [dget]
  | cons kv rest ih =>
    by_cases hk : kv.1 = k
    · simp [dget, hk]
    · simp [dget, hk, ih]

/-- Keys of a dictionary are pairwise distinct. -/
def NodupKeys {α : Type} (d : List (String × α)) : Prop := (dkeys d).Nodup

theorem nodupKeys_functional {α : Type} {d : List (String × α)}
    (hd : NodupKeys d) {k : String} {v₁ v₂ : α}
    (h₁ : (k, v₁) ∈ d) (h₂ : (k, v₂) ∈ d) : v₁ = v₂ := by
  induction d with
  | nil => simp at h₁
  | cons kv rest ih =>
    have hd1 : (kv.1 :: rest.map (·.1)).Nodup := hd
    have hnd := List.nodup_cons.mp hd1
    have hd' : NodupKeys rest := hnd.2
    rcases List.mem_cons.mp h₁ with h₁ | h₁ <;> rcases List.mem_cons.mp h₂ with h₂ | h₂
    · exact (Prod.ext_iff.mp (h₁.trans h₂.symm)).2
    · exfalso
      apply hnd.1
      have hm := List.mem_map_of_mem (fun x : String × α => x.1) h₂
      rw [(congrArg Prod.fst h₁).symm]
      exact hm
    · exfalso
      apply hnd.1
      have hm := List.mem_map_of_mem (fun x : String × α => x.1) h₁
      rw [(congrArg Prod.fst h₂).symm]
      exact hm
    · exact ih hd' h₁ h₂

/-- Invariant preservation through a left fold. -/
theorem foldl_preserve {α β : Type} (P : α → Prop) (f : α → β → α) :
    ∀ (l : List β) (init : α), P init → (∀ a b, P a → b ∈ l → P (f a b)) →
      P (l.foldl f init) := by
  intro l
  induction l with
  | nil => exact fun init h0 _ => h0
  | cons x xs ih =>
    intro init h0 h
    exact ih (f init x) (h init x h0 (List.mem_cons_self x xs))
      (fun a b ha hb => h a b ha (List.mem_cons_of_mem _ hb))

/-! ## Sorting lemmas (`sorted(urls)`) -/

theorem insertSorted_perm (a : String) (l : List String) :
    List.Perm (insertSorted a l) (a :: l) := by
  induction l with
  | nil => exact List.Perm.refl _
  | cons b bs ih =>
    unfold insertSorted
    by_cases h : leCharsC a.data b.data
    · rw [if_pos h]
    · rw [if_neg h]
      exact (ih.cons b).trans (List.Perm.swap a b bs)

theorem sortStrings_perm (l : List String) : List.Perm (sortStrings l) l := by
  induction l with
  | nil => exact List.Perm.refl _
  | cons x xs ih =>
    exact (insertSorted_perm x (sortStrings xs)).trans (ih.cons x)

theorem mem_sortStrings {l : List String} {u : String} : u ∈ sortStrings l ↔ u ∈ l :=
  (sortStrings_perm l).mem_iff

/-! ## Retry-loop lemmas (claim C4) -/

theorem fetchGo_attempts_le (fetch : Nat → Option (List Nat × String)) :
    ∀ (k a : Nat), (fetchGo fetch a k).attempts ≤ k := by
  intro k
  induction k with
  | zero => intro a; simp [fetchGo]
  | succ n ih =>
    intro a
    simp only [fetchGo]
    cases fetch a with
    | some r => simp
    | none => simpa using ih (a + 1)

theorem fetchGo_sleeps (fetch : Nat → Option (List Nat × String)) :
    ∀ (k a : Nat), (fetchGo fetch a k).sleeps =
      (List.range (fetchGo fetch a k).sleeps.length).map (fun i => 2 * (a + i + 1)) := by
  intro k
  induction k with
  | zero => intro a; simp [fetchGo]
  | succ n ih =>
    intro a
    simp only [fetchGo]
    cases fetch a with
    | some r => simp
    | none =>
      simp only [List.length_cons, List.range_succ_eq_map, List.map_cons, List.map_map]
      rw [ih (a + 1)]
      simp only [List.length_map, List.length_range, Nat.add_zero]
      congr 1
      apply List.map_congr_left
      intro i _
      simp only [Function.comp_apply]
      omega

theorem fetchGo_all_fail (fetch : Nat → Option (List Nat × String)) :
    ∀ (k a : Nat), (∀ i, i < k → fetch (a + i) = none) →
      (fetchGo fetch a k).result = none ∧ (fetchGo fetch a k).attempts = k ∧
      (fetchGo fetch a k).sleeps.length = k := by
  intro k
  induction k with
  | zero => intro a _; simp [fetchGo]
  | succ n ih =>
    intro a h
    have h0 : fetch a = none := by simpa using h 0 (Nat.succ_pos n)
    have hrest := ih (a + 1) (fun i hi => by
      have := h (i + 1) (Nat.succ_lt_succ hi)
      simpa [Nat.add_assoc, Nat.add_comm 1 i] using this)
    simp only [fetchGo, h0]
    exact ⟨hrest.1, by simpa using hrest.2.1, by simpa using hrest.2.2⟩

theorem buildMaps_failed_aux :
    ∀ (l : List (String × Option String)) (ms : Maps) (u : String),
      ((u, none) ∈ l ∨ dget ms.failed u = some "download_failed") →
      dget (l.foldl buildStep ms).failed u = some "download_failed" := by
  intro l
  induction l with
  | nil =>
    intro ms u h
    simpa using h.resolve_left (by simp)
  | cons e es ih =>
    intro ms u h
    rw [List.foldl_cons]
    apply ih
    rcases h with h | h
    · rcases List.mem_cons.mp h with h | h
      · right
        rw [← h]
        simp [buildStep, dget_dset_self]
      · exact Or.inl h
    · right
      obtain ⟨k, o⟩ := e
      cases o with
      | none =>
        by_cases hk : u = k
        · subst hk; simp [buildStep, dget_dset_self]
        · simpa [buildStep, dget_dset_ne _ _ hk] using h
      | some saved => simpa [buildStep] using h

/-! ## Download coordinator lemmas (claims C8, C5, C1) -/

theorem dl_worker_out (dest_map : List (String × String)) (retries : Nat)
    (fetch : String → Nat → Option (List Nat × String))
    (guess : String → Option String) (writeOk : String → Bool)
    (st : DlState) (u : String) :
    ∃ x, (dl_worker dest_map retries fetch guess writeOk st u).out = dset st.out u x := by
  unfold dl_worker
  by_cases h : (dget st.disk ((dget dest_map u).getD "")).getD 0 > 0
  · exact ⟨some ((dget dest_map u).getD ""), by simp [h]⟩
  · simp only [h, if_false]
    cases hr : (fetch_with_retries (fetch u) retries).result with
    | none => exact ⟨none, by simp [hr]⟩
    | some pr =>
      obtain ⟨content, ctype⟩ := pr
      by_cases hw : writeOk (ensure_ext ((dget dest_map u).getD "") ctype guess)
      · exact ⟨some (ensure_ext ((dget dest_map u).getD "") ctype guess), by simp [hr, hw]⟩
      · exact ⟨none, by simp [hr, hw]⟩

theorem download_fold_out_isSome (dest_map : List (String × String)) (retries : Nat)
    (fetch : String → Nat → Option (List Nat × String))
    (guess : String → Option String) (writeOk : String → Bool) :
    ∀ (l : List String) (st : DlState) (v : String),
      (dget (l.foldl (dl_worker dest_map retries fetch guess writeOk) st).out v).isSome
        ↔ v ∈ l ∨ (dget st.out v).isSome := by
  intro l
  induction l with
  | nil => simp
  | cons u us ih =>
    intro st v
    rw [List.foldl_cons, ih]
    obtain ⟨x, hx⟩ := dl_worker_out dest_map retries fetch guess writeOk st u
    by_cases hv : v = u
    · subst hv
      simp [hx, dget_dset_self]
    · rw [hx, dget_dset_ne _ _ hv]
      simp [List.mem_cons, hv]

/-- Claim C8: `download_all` is total over its input: the returned map's key
set equals the input URL set, every input URL is bound to a terminal outcome
(a saved path, or `None` as the failure marker), and — the fold returning
only after every worker ran — callers never observe a partial result. -/
theorem claimC8_download_all_total (urls : List String) (dest_map : List (String × String))
    (retries : Nat) (fetch : String → Nat → Option (List Nat × String))
    (guess : String → Option String) (writeOk : String → Bool) (disk : Disk) :
    (∀ u, u ∈ dkeys (download_all urls dest_map retries fetch guess writeOk disk).out
        ↔ u ∈ urls) ∧
    (∀ u, u ∈ urls →
      ∃ o, dget (download_all urls dest_map retries fetch guess writeOk disk).out u = some o) := by
  constructor
  · intro u
    rw [mem_dkeys_iff]
    unfold download_all
    rw [download_fold_out_isSome, mem_sortStrings]
    simp [dget]
  · intro u hu
    apply Option.isSome_iff_exists.mp
    unfold download_all
    rw [download_fold_out_isSome]
    exact Or.inl (mem_sortStrings.mpr hu)

/-- Witness for C8 at a concrete input (one URL, failing fetch). -/
theorem claimC8_witness :
    ("https://h/a.png" ∈ ["https://h/a.png"]) ∧
    ("https://h/a.png" ∈ dkeys (download_all ["https://h/a.png"]
        [("https://h/a.png", "assets/f/a.png")] 2 (fun _ _ => none)
        (fun _ => none) (fun _ => true) []).out) ∧
    (∃ o, dget (download_all ["https://h/a.png"] [("https://h/a.png", "assets/f/a.png")] 2
        (fun _ _ => none) (fun _ => none) (fun _ => true) []).out "https://h/a.png" = some o) := by
  refine ⟨by decide, ?_, ?_⟩
  · exact ((claimC8_download_all_total ["https://h/a.png"]
      [("https://h/a.png", "assets/f/a.png")] 2 (fun _ _ => none)
      (fun _ => none) (fun _ => true) []).1 _).mpr (by decide)
  · exact (claimC8_download_all_total ["https://h/a.png"]
      [("https://h/a.png", "assets/f/a.png")] 2 (fun _ _ => none)
      (fun _ => none) (fun _ => true) []).2 _ (by decide)

/-- Counterexample to claim C4 as stated: with the default 2 retries and all
attempts failing, the delays slept between consecutive attempts are 0.2 s,
0.4 s, 0.6 s (recorded in tenths) — the second delay exceeds the first, so
the delay is not constant (fixed, non-increasing). -/
theorem claimC4_cex :
    (fetch_with_retries (fun _ => none) 2).sleeps = [2, 4, 6] ∧
    ¬ ((fetch_with_retries (fun _ => none) 2).sleeps.getD 1 0 ≤
       (fetch_with_retries (fun _ => none) 2).sleeps.getD 0 0) := by
  exact ⟨rfl, by decide⟩

/-- Claim C4 (amended): for every URL the fetch routine makes at most
`retries + 1` attempts (3 at the default of 2 retries); between consecutive
attempts it waits `0.2 * (attempt + 1)` seconds — linearly increasing, not
exponential; and when all attempts fail the result is `None`, which the
manifest builder records as a failure with reason `download_failed`. -/
theorem claimC4_retry_policy (fetch : Nat → Option (List Nat × String)) (retries : Nat)
    (result : List (String × Option String)) (u : String) :
    (fetch_with_retries fetch retries).attempts ≤ retries + 1 ∧
    (fetch_with_retries fetch retries).sleeps =
      (List.range (fetch_with_retries fetch retries).sleeps.length).map
        (fun i => 2 * (i + 1)) ∧
    ((∀ i, i ≤ retries → fetch i = none) →
      (fetch_with_retries fetch retries).result = none ∧
      (fetch_with_retries fetch retries).attempts = retries + 1) ∧
    ((u, none) ∈ result → dget (buildMaps result).failed u = some "download_failed") := by
  refine ⟨fetchGo_attempts_le fetch (retries + 1) 0, ?_, ?_, ?_⟩
  · have h := fetchGo_sleeps fetch (retries + 1) 0
    simpa using h
  · intro hall
    have h := fetchGo_all_fail fetch (retries + 1) 0 (fun i hi => by
      simpa using hall i (Nat.lt_succ_iff.mp hi))
    exact ⟨h.1, h.2.1⟩
  · intro hmem
    exact buildMaps_failed_aux result ⟨[], []⟩ u (Or.inl hmem)

/-- Witness for the amended C4 at a concrete input: 2 retries, all attempts
failing, one URL recorded as failed. -/
theorem claimC4_witness :
    (fetch_with_retries (fun _ => none) 2).attempts = 3 ∧
    (fetch_with_retries (fun _ => none) 2).result = none ∧
    dget (buildMaps [("https://h/a.png", none)]).failed "https://h/a.png" =
      some "download_failed" := by
  have h := claimC4_retry_policy (fun _ => none) 2 [("https://h/a.png", none)] "https://h/a.png"
  refine ⟨?_, ?_, ?_⟩
  · exact (h.2.2.1 (fun _ _ => rfl)).2
  · exact (h.2.2.1 (fun _ _ => rfl)).1
  · exact h.2.2.2 (by decide)

/-! ## Claim C10: elements with no resolved reference are untouched -/

/-- Claim C10: an `<img>` element on which no extracted reference resolves
through `url_map` (neither under its canonical form nor raw) is left entirely
unchanged by the rewrite phase — in particular its lazy-load attributes are
not stripped — because `replace_urls_in_tag` runs only when the element's
local substitution map is non-empty. -/
theorem claimC10_unresolved_tag_unchanged (url_map : List (String × String)) (tag : Attrs)
    (h : ∀ au ∈ extract_image_urls_from_tag tag,
      opTruthy (dget url_map (canonUrl au.2)) = false ∧
      opTruthy (dget url_map au.2) = false) :
    rewriteTag url_map tag = tag := by
  have hlm : localMapForTag url_map tag = [] := by
    unfold localMapForTag
    generalize hgen : extract_image_urls_from_tag tag = l at h
    clear hgen
    induction l with
    | nil => rfl
    | cons au aus ih =>
      rw [List.foldl_cons]
      have h0 := h au (List.mem_cons_self au aus)
      have hstep : localStep url_map [] au = [] := by
        unfold localStep
        by_cases hu : au.2 = ""
        · simp [hu]
        · rw [if_neg hu]
          simp only [h0.1, Bool.false_eq_true, if_false]
          cases hm : dget url_map au.2 with
          | none => simp [hm]
          | some m =>
            have h2 := h0.2
            rw [hm] at h2
            have hm0 : m = "" := by simpa [opTruthy] using h2
            simp [hm, hm0]
      rw [hstep]
      exact ih (fun au' hau' => h au' (List.mem_cons_of_mem _ hau'))
  unfold rewriteTag
  simp [hlm]

/-- Witness for C10: an element whose only reference is not in the (empty)
url map keeps `data-src`, `loading` and `srcset` exactly as they were. -/
theorem claimC10_witness :
    (∀ au ∈ extract_image_urls_from_tag
        [("data-src", "https://h/a.png"), ("loading", "lazy"), ("srcset", "b.png 2x")],
      opTruthy (dget ([("https://h/z.png", "assets/f/z.png")] : List (String × String))
          (canonUrl au.2)) = false ∧
      opTruthy (dget ([("https://h/z.png", "assets/f/z.png")] : List (String × String))
          au.2) = false) ∧
    rewriteTag [("https://h/z.png", "assets/f/z.png")]
        [("data-src", "https://h/a.png"), ("loading", "lazy"), ("srcset", "b.png 2x")] =
      [("data-src", "https://h/a.png"), ("loading", "lazy"), ("srcset", "b.png 2x")] := by
  refine ⟨by decide, ?_⟩
  exact claimC10_unresolved_tag_unchanged _ _ (by decide)

/-! ## Claim C2: the lazy-source `src` synthesis never happens -/

/-- Claim C2, evaluated at its failing input: for
`<img data-src="https://h/x.jpg" loading="lazy">` with the download of
`https://h/x.jpg` succeeding (its entry is in `url_map`), the rewrite phase
does *not* produce `<img src="<local-path>">`: the fallback looks up the
already-reassigned `data-src` value (now a local path) in `url_map`, finds
nothing, and never sets `src`; it then strips `data-src` and `loading`,
leaving an element with no attributes at all. -/
theorem claimC2_src_never_synthesized :
    (dget (process_frags "assets/f" [[[("data-src", "https://h/x.jpg"), ("loading", "lazy")]]]
        2 (fun _ _ => some ([1], "image/jpeg")) (fun _ => some ".jpg") (fun _ => true)
        []).url_map "https://h/x.jpg").isSome = true ∧
    (process_frags "assets/f" [[[("data-src", "https://h/x.jpg"), ("loading", "lazy")]]]
        2 (fun _ _ => some ([1], "image/jpeg")) (fun _ => some ".jpg") (fun _ => true)
        []).rewritten = [[[]]] := by
  exact ⟨rfl, rfl⟩

/-! ## Claim C5: idempotence of a second run -/

/-- Counterexample to claim C5 as stated: a URL whose derived filename has no
extension (`https://h/img`) is saved under the `ensure_ext`-extended path
`….png`, which differs from the planned destination, so the second run's
cache check misses and a network request *is* issued again. -/
theorem claimC5_cex :
    (process_frags "assets/f" [[[("src", "https://h/img")]]] 2
        (fun _ _ => some ([7], "image/png"))
        (fun c => if c = "image/png" then some ".png" else none) (fun _ => true)
        []).requests = ["https://h/img"] ∧
    (process_frags "assets/f" [[[("src", "https://h/img")]]] 2
        (fun _ _ => some ([7], "image/png"))
        (fun c => if c = "image/png" then some ".png" else none) (fun _ => true)
        (process_frags "assets/f" [[[("src", "https://h/img")]]] 2
          (fun _ _ => some ([7], "image/png"))
          (fun c => if c = "image/png" then some ".png" else none) (fun _ => true)
          []).disk).requests = ["https://h/img"] := by
  exact ⟨rfl, rfl⟩

theorem cached_fold (dest_map : List (String × String)) (retries : Nat)
    (fetch : String → Nat → Option (List Nat × String))
    (guess : String → Option String) (writeOk : String → Bool) :
    ∀ (l : List String) (st : DlState),
      (∀ u ∈ l, 0 < (dget st.disk ((dget dest_map u).getD "")).getD 0) →
      (l.foldl (dl_worker dest_map retries fetch guess writeOk) st).requests = st.requests ∧
      (l.foldl (dl_worker dest_map retries fetch guess writeOk) st).disk = st.disk ∧
      (∀ u ∈ l, dget (l.foldl (dl_worker dest_map retries fetch guess writeOk) st).out u =
        some (some ((dget dest_map u).getD ""))) ∧
      (∀ v, v ∉ l →
        dget (l.foldl (dl_worker dest_map retries fetch guess writeOk) st).out v =
          dget st.out v) := by
  intro l
  induction l with
  | nil => exact fun st _ => ⟨rfl, rfl, fun u hu => absurd hu (List.not_mem_nil u), fun v _ => rfl⟩
  | cons u us ih =>
    intro st h
    have hu := h u (List.mem_cons_self u us)
    have hworker : dl_worker dest_map retries fetch guess writeOk st u =
        { st with out := dset st.out u (some ((dget dest_map u).getD "")) } := by
      unfold dl_worker
      rw [if_pos hu]
    rw [List.foldl_cons, hworker]
    have hrest := ih { st with out := dset st.out u (some ((dget dest_map u).getD "")) }
      (fun u' hu' => h u' (List.mem_cons_of_mem _ hu'))
    refine ⟨hrest.1, hrest.2.1, ?_, ?_⟩
    · intro w hw
      rcases List.mem_cons.mp hw with hw | hw
      · subst hw
        by_cases hwin : w ∈ us
        · exact hrest.2.2.1 w hwin
        · rw [hrest.2.2.2 w hwin]
          simp [dget_dset_self]
      · exact hrest.2.2.1 w hw
    · intro v hv
      have hv1 : v ≠ u := fun hh => hv (hh ▸ List.mem_cons_self u us)
      have hv2 : v ∉ us := fun hh => hv (List.mem_cons_of_mem _ hh)
      rw [hrest.2.2.2 v hv2]
      simp [dget_dset_ne _ _ hv1]

/-- Claim C5 (amended): when every URL's *planned* destination already exists
non-empty on disk — which is the state a successful first run leaves exactly
when the saved path equals the planned path, i.e. the derived filename
already had an extension (or no extension was inferred from the
content-type) and the content was non-empty — a second `download_all` over
the same inputs issues zero network requests, leaves the disk unchanged, and
binds every URL to its cached destination, so the rebuilt manifest is
unchanged. -/
theorem claimC5_second_run_cached (urls : List String) (dest_map : List (String × String))
    (retries : Nat) (fetch : String → Nat → Option (List Nat × String))
    (guess : String → Option String) (writeOk : String → Bool) (disk : Disk)
    (h : ∀ u ∈ urls, 0 < (dget disk ((dget dest_map u).getD "")).getD 0) :
    (download_all urls dest_map retries fetch guess writeOk disk).requests = [] ∧
    (download_all urls dest_map retries fetch guess writeOk disk).disk = disk ∧
    (∀ u ∈ urls, dget (download_all urls dest_map retries fetch guess writeOk disk).out u =
      some (some ((dget dest_map u).getD ""))) := by
  have hc := cached_fold dest_map retries fetch guess writeOk (sortStrings urls)
    ⟨[], [], disk⟩ (fun u hu => h u (mem_sortStrings.mp hu))
  exact ⟨hc.1, hc.2.1, fun u hu => hc.2.2.1 u (mem_sortStrings.mpr hu)⟩

/-- Witness for the amended C5: one URL whose destination (with extension)
is already on disk non-empty: no request, disk unchanged, cached outcome. -/
theorem claimC5_witness :
    (download_all ["https://h/a.png"] [("https://h/a.png", "assets/f/a-11111111.png")] 2
        (fun _ _ => none) (fun _ => none) (fun _ => true)
        [("assets/f/a-11111111.png", 5)]).requests = [] ∧
    (download_all ["https://h/a.png"] [("https://h/a.png", "assets/f/a-11111111.png")] 2
        (fun _ _ => none) (fun _ => none) (fun _ => true)
        [("assets/f/a-11111111.png", 5)]).disk = [("assets/f/a-11111111.png", 5)] ∧
    (∀ u ∈ ["https://h/a.png"],
      dget (download_all ["https://h/a.png"] [("https://h/a.png", "assets/f/a-11111111.png")] 2
        (fun _ _ => none) (fun _ => none) (fun _ => true)
        [("assets/f/a-11111111.png", 5)]).out u =
      some (some ((dget [("https://h/a.png", "assets/f/a-11111111.png")] u).getD ""))) :=
  claimC5_second_run_cached ["https://h/a.png"] [("https://h/a.png", "assets/f/a-11111111.png")]
    2 (fun _ _ => none) (fun _ => none) (fun _ => true) [("assets/f/a-11111111.png", 5)]
    (by decide)

/-! ## Claim C6: filename uniqueness -/

/-- Counterexample to claim C6: two distinct URLs with the same last path
segment `image.png` whose 8-hex-character truncated SHA-256 digests collide
(both are `500bce75`), so `safe_filename_from_url` gives both the same
filename `image-500bce75.png`. -/
theorem claimC6_cex :
    safe_filename_from_url "http://h/7li/image.png" 8 =
      safe_filename_from_url "http://h/nwb/image.png" 8 ∧
    ("http://h/7li/image.png" : String) ≠ "http://h/nwb/image.png" := by
  exact ⟨rfl, by decide⟩

theorem str_ext {s t : String} (h : s.data = t.data) : s = t := by
  cases s
  cases t
  exact congrArg String.mk h

theorem str_data_append (s t : String) : (s ++ t).data = s.data ++ t.data := by
  cases s
  cases t
  rfl

/-- Claim C6 (amended): for two distinct URLs with the same last path
segment, the derived filenames are distinct *provided their 8-character hash
prefixes differ* — the filename determines the hash, so only a truncated-hash
collision can make two such URLs share a destination file. -/
theorem claimC6_same_name_distinct_hash (u₁ u₂ : String)
    (hname : pyName (urlparse_path u₁) = pyName (urlparse_path u₂))
    (hhash : short_hash u₁ 8 ≠ short_hash u₂ 8) :
    safe_filename_from_url u₁ 8 ≠ safe_filename_from_url u₂ 8 := by
  intro heq
  apply hhash
  unfold safe_filename_from_url at heq
  rw [← hname] at heq
  by_cases hn : pyName (urlparse_path u₁) ≠ ""
  · rw [if_pos hn, if_pos hn] at heq
    by_cases he : pySuffix (pyName (urlparse_path u₁)) ≠ ""
    · rw [if_pos he, if_pos he] at heq
      have hd := congrArg String.data heq
      simp only [str_data_append, List.append_assoc] at hd
      have hd1 := List.append_cancel_left hd
      have hd2 := List.append_cancel_left hd1
      have hd3 := List.append_cancel_right hd2
      exact str_ext hd3
    · rw [if_neg he, if_neg he] at heq
      have hd := congrArg String.data heq
      simp only [str_data_append, List.append_assoc] at hd
      have hd1 := List.append_cancel_left hd
      have hd2 := List.append_cancel_left hd1
      exact str_ext hd2
  · rw [if_neg hn, if_neg hn] at heq
    exact heq

/-! ## Claim C7: scan/rewrite path round-trip -/

/-- Unique-keys test for a dictionary. -/
def nodupKeysB {α : Type} : List (String × α) → Bool
  | [] => true
  | (k, _) :: rest => !(dmem rest k) && nodupKeysB rest

mutual
/-- Well-formedness of a document as `json.loads` produces it: every mapping
has pairwise-distinct keys. -/
def jsonWF : Json → Bool
  | .str _ => true
  | .other => true
  | .obj fields => nodupKeysB fields && fieldsWF fields
  | .arr elems => elemsWF elems

def fieldsWF : List (String × Json) → Bool
  | [] => true
  | (_, v) :: rest => jsonWF v && fieldsWF rest

def elemsWF : List Json → Bool
  | [] => true
  | v :: rest => jsonWF v && elemsWF rest
end

/-- Two paths diverge when they differ at some position both possess:
neither is a prefix of the other from that point on. -/
def divergeB : List PathStep → List PathStep → Bool
  | [], _ => false
  | _ :: _, [] => false
  | a :: as, b :: bs => if a = b then divergeB as bs else true

theorem dget_isSome_of_mem {α : Type} {l : List (String × α)} {k : String} {v : α}
    (h : (k, v) ∈ l) : (dget l k).isSome = true := by
  induction l with
  | nil => simp at h
  | cons kv rest ih =>
    rcases List.mem_cons.mp h with h | h
    · rw [← h]
      simp [dget]
    · by_cases hk : kv.1 = k
      · simp [dget, hk]
      · simp only [dget, if_neg hk]
        exact ih h

theorem dget_of_mem_nodupB {α : Type} {l : List (String × α)} {k : String} {v : α}
    (hnd : nodupKeysB l = true) (h : (k, v) ∈ l) : dget l k = some v := by
  induction l with
  | nil => simp at h
  | cons kv rest ih =>
    obtain ⟨k0, v0⟩ := kv
    simp only [nodupKeysB, Bool.and_eq_true, Bool.not_eq_true'] at hnd
    rcases List.mem_cons.mp h with h | h
    · injection h with h1 h2
      subst h1
      subst h2
      simp [dget]
    · by_cases hk : k0 = k
      · exfalso
        subst hk
        have := dget_isSome_of_mem h
        rw [dmem, this] at hnd
        exact absurd hnd.1 (by simp)
      · simp only [dget, if_neg hk]
        exact ih hnd.2 h

theorem fieldsWF_mem {l : List (String × Json)} {k : String} {v : Json}
    (hwf : fieldsWF l = true) (h : (k, v) ∈ l) : jsonWF v = true := by
  induction l with
  | nil => simp at h
  | cons kv rest ih =>
    obtain ⟨k0, v0⟩ := kv
    rw [fieldsWF, Bool.and_eq_true] at hwf
    rcases List.mem_cons.mp h with h | h
    · injection h with h1 h2
      subst h2
      exact hwf.1
    · exact ih hwf.2 h

theorem elemsWF_get {l : List Json} {v : Json} :
    ∀ {j : Nat}, elemsWF l = true → l[j]? = some v → jsonWF v = true := by
  induction l with
  | nil => intro j _ h; simp at h
  | cons w rest ih =>
    intro j hwf h
    rw [elemsWF, Bool.and_eq_true] at hwf
    cases j with
    | zero =>
      simp only [List.getElem?_cons_zero] at h
      injection h with h
      subst h
      exact hwf.1
    | succ n =>
      rw [List.getElem?_cons_succ] at h
      exact ih hwf.2 h

theorem sizeOf_of_mem_fields {l : List (String × Json)} {k : String} {v : Json}
    (h : (k, v) ∈ l) : sizeOf v < sizeOf (Json.obj l) := by
  induction l with
  | nil => simp at h
  | cons kv rest ih =>
    rcases List.mem_cons.mp h with h | h
    · rw [← h]
      simp
      omega
    · have := ih h
      simp at this ⊢
      omega

theorem sizeOf_of_elem {l : List Json} {v : Json} :
    ∀ {j : Nat}, l[j]? = some v → sizeOf v < sizeOf (Json.arr l) := by
  induction l with
  | nil => intro j h; simp at h
  | cons w rest ih =>
    intro j h
    cases j with
    | zero =>
      simp only [List.getElem?_cons_zero] at h
      injection h with h
      subst h
      simp
      omega
    | succ n =>
      rw [List.getElem?_cons_succ] at h
      have := ih h
      simp at this ⊢
      omega

theorem walkFields_hits : ∀ (l : List (String × Json)) (p : List PathStep) (s : String),
    (p, s) ∈ walkFields l → ∃ k p' v, p = PathStep.key k :: p' ∧ (k, v) ∈ l ∧
      (p', s) ∈ walk_and_collect_html v := by
  intro l
  induction l with
  | nil => intro p s h; simp [walkFields] at h
  | cons kv rest ih =>
    obtain ⟨k, v⟩ := kv
    intro p s h
    rw [walkFields] at h
    rcases List.mem_append.mp h with h | h
    · obtain ⟨x, hmem, heq⟩ := List.mem_map.mp h
      injection heq with h1 h2
      exact ⟨k, x.1, v, h1.symm, List.mem_cons_self _ _, by rw [← h2]; exact hmem⟩
    · obtain ⟨k', p', v', hp, hmem, hhit⟩ := ih p s h
      exact ⟨k', p', v', hp, List.mem_cons_of_mem _ hmem, hhit⟩

theorem walkElems_hits : ∀ (l : List Json) (i : Nat) (p : List PathStep) (s : String),
    (p, s) ∈ walkElems i l → ∃ j p' v, p = PathStep.idx j :: p' ∧ i ≤ j ∧
      l[j - i]? = some v ∧ (p', s) ∈ walk_and_collect_html v := by
  intro l
  induction l with
  | nil => intro i p s h; simp [walkElems] at h
  | cons w rest ih =>
    intro i p s h
    rw [walkElems] at h
    rcases List.mem_append.mp h with h | h
    · obtain ⟨x, hmem, heq⟩ := List.mem_map.mp h
      injection heq with h1 h2
      refine ⟨i, x.1, w, h1.symm, Nat.le_refl i, ?_, by rw [← h2]; exact hmem⟩
      simp
    · obtain ⟨j, p', v', hp, hij, hget, hhit⟩ := ih (i + 1) p s h
      refine ⟨j, p', v', hp, Nat.le_of_succ_le hij, ?_, hhit⟩
      have hji : j - i = (j - (i + 1)) + 1 := by omega
      rw [hji, List.getElem?_cons_succ]
      exact hget

theorem walk_get_fuel : ∀ (n : Nat) (j : Json), sizeOf j ≤ n → jsonWF j = true →
    ∀ p s, (p, s) ∈ walk_and_collect_html j → getJson j p = some (Json.str s) := by
  intro n
  induction n with
  | zero =>
    intro j hsz
    exfalso
    cases j <;> simp at hsz
  | succ n ih =>
    intro j hsz hwf p s hhit
    cases j with
    | str s0 =>
      rw [walk_and_collect_html] at hhit
      by_cases hm : hasImgMarker s0
      · rw [if_pos hm] at hhit
        rcases List.mem_singleton.mp hhit with h
        injection h with h1 h2
        subst h1
        subst h2
        rfl
      · rw [if_neg hm] at hhit
        simp at hhit
    | other => simp [walk_and_collect_html] at hhit
    | obj fields =>
      rw [walk_and_collect_html] at hhit
      obtain ⟨k, p', v, hp, hmem, hhit'⟩ := walkFields_hits fields p s hhit
      rw [jsonWF, Bool.and_eq_true] at hwf
      have hv : jsonWF v = true := fieldsWF_mem hwf.2 hmem
      have hsz' : sizeOf v ≤ n := by
        have := sizeOf_of_mem_fields hmem
        omega
      have hrec := ih v hsz' hv p' s hhit'
      subst hp
      simp only [getJson, getChild]
      rw [dget_of_mem_nodupB hwf.1 hmem]
      simpa using hrec
    | arr elems =>
      rw [walk_and_collect_html] at hhit
      obtain ⟨j, p', v, hp, _, hget, hhit'⟩ := walkElems_hits elems 0 p s hhit
      rw [Nat.sub_zero] at hget
      rw [jsonWF] at hwf
      have hv : jsonWF v = true := elemsWF_get hwf hget
      have hsz' : sizeOf v ≤ n := by
        have := sizeOf_of_elem hget
        omega
      have hrec := ih v hsz' hv p' s hhit'
      subst hp
      simp only [getJson, getChild]
      rw [hget]
      simpa using hrec

/-- The set/get/frame properties of `set_by_path` along a resolvable
non-empty path. -/
theorem set_props : ∀ (p : List PathStep) (j t v' : Json), p ≠ [] →
    getJson j p = some t →
    ∃ j', set_by_path j p v' = some j' ∧ getJson j' p = some v' ∧
      (∀ q, divergeB p q = true → getJson j' q = getJson j q) := by
  intro p
  induction p with
  | nil => intro j t v' hne _; exact absurd rfl hne
  | cons x rest ih =>
    intro j t v' _ hget
    simp only [getJson] at hget
    cases hc : getChild j x with
    | none => rw [hc] at hget; simp at hget
    | some c =>
      rw [hc] at hget
      simp only [Option.some_bind] at hget
      cases rest with
      | nil =>
        -- p = [x]: assign directly at the last step
        simp only [getJson] at hget
        injection hget with hget
        subst hget
        cases j with
        | str _ => simp [getChild] at hc
        | other => simp [getChild] at hc
        | obj fields =>
          cases x with
          | idx _ => simp [getChild] at hc
          | key k =>
            refine ⟨Json.obj (dset fields k v'), rfl, ?_, ?_⟩
            · simp only [getJson, getChild, dget_dset_self, Option.some_bind]
            · intro q hq
              cases q with
              | nil => simp [divergeB] at hq
              | cons y qs =>
                simp only [divergeB] at hq
                by_cases hxy : PathStep.key k = y
                · rw [if_pos hxy] at hq
                  simp [divergeB] at hq
                · rw [if_neg hxy] at hq
                  cases y with
                  | idx _ => simp [getJson, getChild]
                  | key k' =>
                    have hkk : k' ≠ k := fun hh => hxy (by rw [hh])
                    simp only [getJson, getChild]
                    rw [dget_dset_ne _ _ hkk]
        | arr elems =>
          cases x with
          | key _ => simp [getChild] at hc
          | idx i =>
            simp only [getChild] at hc
            have hlen : i < elems.length := by
              by_contra hcon
              rw [List.getElem?_eq_none (Nat.le_of_not_lt hcon)] at hc
              simp at hc
            refine ⟨Json.arr (elems.set i v'), ?_, ?_, ?_⟩
            · simp [set_by_path, setChild, hlen]
            · simp only [getJson, getChild, List.getElem?_set_eq_of_lt _ hlen,
                Option.some_bind]
            · intro q hq
              cases q with
              | nil => simp [divergeB] at hq
              | cons y qs =>
                simp only [divergeB] at hq
                by_cases hxy : PathStep.idx i = y
                · rw [if_pos hxy] at hq
                  simp [divergeB] at hq
                · rw [if_neg hxy] at hq
                  cases y with
                  | key _ => simp [getJson, getChild]
                  | idx i' =>
                    have hii : i ≠ i' := fun hh => hxy (by rw [hh])
                    simp only [getJson, getChild]
                    rw [List.getElem?_set_ne hii]
      | cons r1 r2 =>
        -- p = x :: rest with rest non-empty: navigate, recurse, reassign
        obtain ⟨c', hset, hget', hframe⟩ := ih c t v' (by simp) hget
        cases j with
        | str _ => simp [getChild] at hc
        | other => simp [getChild] at hc
        | obj fields =>
          cases x with
          | idx _ => simp [getChild] at hc
          | key k =>
            simp only [getChild] at hc
            refine ⟨Json.obj (dset fields k c'), ?_, ?_, ?_⟩
            · simp only [set_by_path, getChild, hc, hset, setChild]
            · simp only [getJson, getChild, dget_dset_self, Option.some_bind]
              exact hget'
            · intro q hq
              cases q with
              | nil => simp [divergeB] at hq
              | cons y qs =>
                simp only [divergeB] at hq
                by_cases hxy : PathStep.key k = y
                · rw [if_pos hxy] at hq
                  subst hxy
                  simp only [getJson, getChild, dget_dset_self, hc, Option.some_bind]
                  exact hframe qs hq
                · rw [if_neg hxy] at hq
                  cases y with
                  | idx _ => simp [getJson, getChild]
                  | key k' =>
                    have hkk : k' ≠ k := fun hh => hxy (by rw [hh])
                    simp only [getJson, getChild]
                    rw [dget_dset_ne _ _ hkk]
        | arr elems =>
          cases x with
          | key _ => simp [getChild] at hc
          | idx i =>
            simp only [getChild] at hc
            have hlen : i < elems.length := by
              by_contra hcon
              rw [List.getElem?_eq_none (Nat.le_of_not_lt hcon)] at hc
              simp at hc
            refine ⟨Json.arr (elems.set i c'), ?_, ?_, ?_⟩
            · simp only [set_by_path, getChild, hc, hset, setChild]
              rw [if_pos hlen]
            · simp only [getJson, getChild, List.getElem?_set_eq_of_lt _ hlen,
                Option.some_bind]
              exact hget'
            · intro q hq
              cases q with
              | nil => simp [divergeB] at hq
              | cons y qs =>
                simp only [divergeB] at hq
                by_cases hxy : PathStep.idx i = y
                · rw [if_pos hxy] at hq
                  subst hxy
                  simp only [getJson, getChild, List.getElem?_set_eq_of_lt _ hlen, hc,
                    Option.some_bind]
                  exact hframe qs hq
                · rw [if_neg hxy] at hq
                  cases y with
                  | key _ => simp [getJson, getChild]
                  | idx i' =>
                    have hii : i ≠ i' := fun hh => hxy (by rw [hh])
                    simp only [getJson, getChild]
                    rw [List.getElem?_set_ne hii]

/-- Counterexample to claim C7 as stated: when the document root is itself a
string containing `<img`, the scanner records the hit `([], s)`, but
`set_by_path` with the empty recorded path does not replace the leaf — the
source raises `IndexError` on `path[-1]` (modelled as `none`). -/
theorem claimC7_cex :
    (([], "<img src='a'>") ∈ walk_and_collect_html (Json.str "<img src='a'>")) ∧
    set_by_path (Json.str "<img src='a'>") [] (Json.str "x") = none := by
  constructor
  · exact List.mem_singleton.mpr rfl
  · rfl

/-- Claim C7 (amended): on a well-formed document (unique mapping keys, as
`json.loads` guarantees), every (Path, string) pair recorded by the scanner
navigates back to exactly the recorded string; and whenever the recorded
path is non-empty — i.e. the document root is a container — `set_by_path`
with that path succeeds, replaces exactly that leaf (every key/index step
resolving as during scanning), and leaves every node on a diverging path
unchanged. -/
theorem claimC7_roundtrip (j : Json) (hwf : jsonWF j = true) (p : List PathStep)
    (s : String) (hhit : (p, s) ∈ walk_and_collect_html j) (v' : Json) :
    getJson j p = some (Json.str s) ∧
    (p ≠ [] → ∃ j', set_by_path j p v' = some j' ∧ getJson j' p = some v' ∧
      ∀ q, divergeB p q = true → getJson j' q = getJson j q) := by
  have hget := walk_get_fuel (sizeOf j) j (Nat.le_refl _) hwf p s hhit
  exact ⟨hget, fun hne => set_props p j (Json.str s) v' hne hget⟩

/-- Witness for the amended C7 on a concrete two-leaf document. -/
theorem claimC7_witness :
    jsonWF (Json.obj [("a", Json.str "<img x>"), ("b", Json.str "plain")]) = true ∧
    ([PathStep.key "a"], "<img x>") ∈
      walk_and_collect_html (Json.obj [("a", Json.str "<img x>"), ("b", Json.str "plain")]) ∧
    getJson (Json.obj [("a", Json.str "<img x>"), ("b", Json.str "plain")])
      [PathStep.key "a"] = some (Json.str "<img x>") ∧
    (∃ j', set_by_path (Json.obj [("a", Json.str "<img x>"), ("b", Json.str "plain")])
        [PathStep.key "a"] (Json.str "new") = some j' ∧
      getJson j' [PathStep.key "a"] = some (Json.str "new") ∧
      ∀ q, divergeB [PathStep.key "a"] q = true →
        getJson j' q =
          getJson (Json.obj [("a", Json.str "<img x>"), ("b", Json.str "plain")]) q) := by
  have h := claimC7_roundtrip (Json.obj [("a", Json.str "<img x>"), ("b", Json.str "plain")])
    rfl [PathStep.key "a"] "<img x>" (List.mem_singleton.mpr rfl) (Json.str "new")
  exact ⟨rfl, List.mem_singleton.mpr rfl, h.1, h.2 (by simp)⟩

/-! ## Claim C1: dedup and identical rewriting per canonical URL -/

theorem mem_dset {α : Type} {l : List (String × α)} {k : String} {v : α} {kv : String × α}
    (h : kv ∈ dset l k v) : kv = (k, v) ∨ kv ∈ l := by
  induction l with
  | nil => simpa [dset] using h
  | cons hd tl ih =>
    obtain ⟨k0, w0⟩ := hd
    simp only [dset] at h
    by_cases hk : k0 = k
    · rw [if_pos hk] at h
      rcases List.mem_cons.mp h with h | h
      · exact Or.inl h
      · exact Or.inr (List.mem_cons_of_mem _ h)
    · rw [if_neg hk] at h
      rcases List.mem_cons.mp h with h | h
      · exact Or.inr (h ▸ List.mem_cons_self _ _)
      · rcases ih h with h | h
        · exact Or.inl h
        · exact Or.inr (List.mem_cons_of_mem _ h)

theorem startsWithC_head {l : List Char} {c : Char} {cs : List Char}
    (h : startsWithC l (c :: cs) = true) : ∃ t, l = c :: t ∧ startsWithC t cs = true := by
  cases l with
  | nil => simp [startsWithC] at h
  | cons a t =>
    rw [startsWithC, Bool.and_eq_true, decide_eq_true_iff] at h
    exact ⟨t, by rw [h.1], h.2⟩

/-- The string-literal prefix computations the canonicalizer facts need. -/
theorem https_append (s : String) : "https:" ++ ("//" ++ s) = "https://" ++ s := by
  apply str_ext
  rw [str_data_append, str_data_append, str_data_append]
  rfl

theorem startsWith_https_not_slash (s : String) :
    pyStartsWith ("https://" ++ s) "//" = false := by
  unfold pyStartsWith
  rw [str_data_append]
  rfl

theorem startsWith_httpsc_not_slash (s : String) :
    pyStartsWith ("https:" ++ s) "//" = false := by
  unfold pyStartsWith
  rw [str_data_append]
  rfl

theorem startsWithC_nil (l : List Char) : startsWithC l [] = true := by
  cases l <;> rfl

theorem startsWith_slashes (s : String) : pyStartsWith ("//" ++ s) "//" = true := by
  unfold pyStartsWith
  rw [str_data_append]
  have h1 : startsWithC ("//".data ++ s.data) "//".data = startsWithC s.data [] := rfl
  rw [h1]
  exact startsWithC_nil s.data

/-- Protocol-relative equivalence: `//host/p` and `https://host/p`
canonicalize to the same URL. -/
theorem canon_protocol_relative (s : String) :
    canonUrl ("//" ++ s) = "https://" ++ s ∧ canonUrl ("https://" ++ s) = "https://" ++ s := by
  constructor
  · unfold canonUrl
    rw [startsWith_slashes, if_pos rfl]
    exact https_append s
  · unfold canonUrl
    rw [startsWith_https_not_slash]
    simp

/-- A URL that passed the http(s) filter does not start with `//`, so
canonicalization leaves it unchanged. -/
theorem canon_of_http {u : String} (h : isHttpUrl u = true) : canonUrl u = u := by
  unfold isHttpUrl at h
  have hh : ∃ t, u.data = 'h' :: t := by
    rcases Bool.or_eq_true _ _ |>.mp h with h | h
    · obtain ⟨t, ht, _⟩ := startsWithC_head (l := u.data) (by
        have hp : ("http://").data = 'h' :: ['t', 't', 'p', ':', '/', '/'] := rfl
        rw [pyStartsWith, hp] at h
        exact h)
      exact ⟨t, ht⟩
    · obtain ⟨t, ht, _⟩ := startsWithC_head (l := u.data) (by
        have hp : ("https://").data = 'h' :: ['t', 't', 'p', 's', ':', '/', '/'] := rfl
        rw [pyStartsWith, hp] at h
        exact h)
      exact ⟨t, ht⟩
  obtain ⟨t, ht⟩ := hh
  unfold canonUrl pyStartsWith
  rw [ht]
  rfl

/-- Canonicalization is idempotent. -/
theorem canon_canon (u : String) : canonUrl (canonUrl u) = canonUrl u := by
  by_cases h : pyStartsWith u "//" = true
  · have h1 : canonUrl u = "https:" ++ u := by
      unfold canonUrl
      rw [if_pos h]
    rw [h1]
    unfold canonUrl
    rw [startsWith_httpsc_not_slash]
    simp
  · have h1 : canonUrl u = u := by
      unfold canonUrl
      rw [if_neg h]
    rw [h1]
    exact h1

/-- Invariant of the URL-collection phase: unique keys, all keys http(s) and
canonical, each bound to its derived destination. -/
def collectInv (assets_dir : String) (m : List (String × String)) : Prop :=
  NodupKeys m ∧ ∀ kv ∈ m, isHttpUrl kv.1 = true ∧ kv.2 = destFor assets_dir kv.1

theorem collectStep_inv (assets_dir : String) (m : List (String × String))
    (au : String × String) (h : collectInv assets_dir m) :
    collectInv assets_dir (collectStep assets_dir m au) := by
  simp only [collectStep]
  by_cases h1 : au.2 = ""
  · rw [if_pos h1]
    exact h
  · rw [if_neg h1]
    by_cases h2 : isHttpUrl (canonUrl au.2) = true
    · rw [if_neg (not_not_intro h2)]
      by_cases h3 : dmem m (canonUrl au.2) = true
      · rw [if_pos h3]
        exact h
      · rw [if_neg h3]
        generalize hgen : destFor assets_dir (canonUrl au.2) = d
        constructor
        · have hk : canonUrl au.2 ∉ dkeys m := by
            rw [mem_dkeys_iff]
            rw [dmem] at h3
            simpa using h3
          have hkeq : dkeys (m ++ [(canonUrl au.2, d)]) = dkeys m ++ [canonUrl au.2] := by
            simp [dkeys]
          rw [NodupKeys, hkeq]
          exact List.Nodup.append h.1 (List.nodup_singleton _)
            (by simpa [List.disjoint_singleton] using hk)
        · intro kv hkv
          rcases List.mem_append.mp hkv with hkv | hkv
          · exact h.2 kv hkv
          · rcases List.mem_singleton.mp hkv with rfl
            exact ⟨h2, hgen.symm⟩
    · rw [if_pos h2]
      exact h

theorem collectUrls_inv (assets_dir : String) (frags : List (List Attrs)) :
    collectInv assets_dir (collectUrls assets_dir frags) := by
  unfold collectUrls
  apply foldl_preserve (collectInv assets_dir)
  · exact ⟨List.nodup_nil, by simp⟩
  · intro m tags hm _
    unfold collectFrag
    apply foldl_preserve (collectInv assets_dir) _ _ _ hm
    intro m' tag hm' _
    unfold collectTag
    apply foldl_preserve (collectInv assets_dir) _ _ _ hm'
    intro m'' au hm'' _
    exact collectStep_inv assets_dir m'' au hm''

theorem dl_worker_requests (dest_map : List (String × String)) (retries : Nat)
    (fetch : String → Nat → Option (List Nat × String))
    (guess : String → Option String) (writeOk : String → Bool)
    (st : DlState) (u : String) :
    (dl_worker dest_map retries fetch guess writeOk st u).requests = st.requests ∨
    (dl_worker dest_map retries fetch guess writeOk st u).requests = st.requests ++ [u] := by
  unfold dl_worker
  by_cases h : (dget st.disk ((dget dest_map u).getD "")).getD 0 > 0
  · left
    simp [h]
  · right
    simp only [h, if_false]
    cases hr : (fetch_with_retries (fetch u) retries).result with
    | none => simp [hr]
    | some pr =>
      obtain ⟨content, ctype⟩ := pr
      by_cases hw : writeOk (ensure_ext ((dget dest_map u).getD "") ctype guess)
      · simp [hr, hw]
      · simp [hr, hw]

theorem download_fold_requests (dest_map : List (String × String)) (retries : Nat)
    (fetch : String → Nat → Option (List Nat × String))
    (guess : String → Option String) (writeOk : String → Bool) :
    ∀ (l : List String) (st : DlState),
      ∃ r, List.Sublist r l ∧
        (l.foldl (dl_worker dest_map retries fetch guess writeOk) st).requests =
          st.requests ++ r := by
  intro l
  induction l with
  | nil => exact fun st => ⟨[], List.nil_sublist [], by simp⟩
  | cons u us ih =>
    intro st
    rw [List.foldl_cons]
    rcases dl_worker_requests dest_map retries fetch guess writeOk st u with h | h
    · obtain ⟨r, hr, heq⟩ := ih (dl_worker dest_map retries fetch guess writeOk st u)
      exact ⟨r, List.Sublist.cons u hr, by rw [heq, h]⟩
    · obtain ⟨r, hr, heq⟩ := ih (dl_worker dest_map retries fetch guess writeOk st u)
      refine ⟨u :: r, List.Sublist.cons₂ u hr, ?_⟩
      rw [heq, h, List.append_assoc]
      rfl

/-! ### Words are never empty, extracted URLs are never empty -/

theorem wordsCAux_ne_nil : ∀ (l acc : List Char) (w : List Char),
    w ∈ wordsCAux acc l → w ≠ [] := by
  intro l
  induction l with
  | nil =>
    intro acc w hw
    by_cases ha : acc = []
    · simp [wordsCAux, ha] at hw
    · simp only [wordsCAux, if_neg ha] at hw
      rcases List.mem_singleton.mp hw with rfl
      simpa using ha
  | cons c rest ih =>
    intro acc w hw
    simp only [wordsCAux] at hw
    by_cases hc : pyIsSpace c = true
    · rw [if_pos hc] at hw
      by_cases ha : acc = []
      · rw [if_pos ha] at hw
        exact ih [] w hw
      · rw [if_neg ha] at hw
        rcases List.mem_cons.mp hw with hw | hw
        · subst hw
          simpa using ha
        · exact ih [] w hw
    · rw [if_neg hc] at hw
      exact ih (c :: acc) w hw

theorem pyWords_ne_empty {s : String} {w : String} (h : w ∈ pyWords s) : w ≠ "" := by
  unfold pyWords at h
  obtain ⟨wc, hwc, hmk⟩ := List.mem_map.mp h
  intro h0
  apply wordsCAux_ne_nil s.data [] wc hwc
  have : w.data = wc := by rw [← hmk]
  rw [h0] at this
  exact this.symm

theorem extractAttrStep_nonempty (tag : Attrs) (acc : List (String × String)) (attr : String)
    (hacc : ∀ au ∈ acc, au.2 ≠ "") : ∀ au ∈ extractAttrStep tag acc attr, au.2 ≠ "" := by
  unfold extractAttrStep
  cases hv : dget tag attr with
  | none => exact hacc
  | some v =>
    show ∀ au ∈ (if v = "" then acc else acc ++ [(attr, v)]), au.2 ≠ ""
    by_cases hv0 : v = ""
    · rw [if_pos hv0]
      exact hacc
    · rw [if_neg hv0]
      intro au hau
      rcases List.mem_append.mp hau with hau | hau
      · exact hacc au hau
      · rcases List.mem_singleton.mp hau with rfl
        exact hv0

theorem extractSrcsetStep_nonempty (acc : List (String × String)) (part : String)
    (hacc : ∀ au ∈ acc, au.2 ≠ "") : ∀ au ∈ extractSrcsetStep acc part, au.2 ≠ "" := by
  simp only [extractSrcsetStep]
  by_cases hp : pyStrip part = ""
  · rw [if_pos hp]
    exact hacc
  · rw [if_neg hp]
    cases hw : pyWords (pyStrip part) with
    | nil => exact hacc
    | cons url rest =>
      intro au hau
      rcases List.mem_append.mp hau with hau | hau
      · exact hacc au hau
      · rcases List.mem_singleton.mp hau with rfl
        exact pyWords_ne_empty (hw ▸ List.mem_cons_self url rest)

theorem extract_nonempty (tag : Attrs) :
    ∀ au ∈ extract_image_urls_from_tag tag, au.2 ≠ "" := by
  have h1 : ∀ au ∈ (["src", "data-src", "data-original"].foldl (extractAttrStep tag) []),
      au.2 ≠ "" :=
    foldl_preserve (fun acc : List (String × String) => ∀ au ∈ acc, au.2 ≠ "")
      (extractAttrStep tag) ["src", "data-src", "data-original"] [] (by simp)
      (fun acc attr hacc _ => extractAttrStep_nonempty tag acc attr hacc)
  intro au hau
  simp only [extract_image_urls_from_tag] at hau
  cases hs : dget tag "srcset" with
  | none =>
    rw [hs] at hau
    exact h1 au hau
  | some srcset =>
    rw [hs] at hau
    by_cases hs0 : srcset = ""
    · subst hs0
      exact h1 au hau
    · simp only [if_neg hs0] at hau
      exact foldl_preserve (fun acc : List (String × String) => ∀ au ∈ acc, au.2 ≠ "")
        extractSrcsetStep (pySplit srcset ',') _ h1
        (fun acc part hacc _ => extractSrcsetStep_nonempty acc part hacc) au hau

/-! ### The per-element substitution map is a function of the canonical URL -/

theorem localStep_values (um : List (String × String))
    (hkeys : ∀ kv ∈ um, isHttpUrl kv.1 = true) (lm : Attrs) (au : String × String)
    (hlm : ∀ kv ∈ lm, dget um (canonUrl kv.1) = some kv.2 ∧ kv.2 ≠ "") :
    ∀ kv ∈ localStep um lm au, dget um (canonUrl kv.1) = some kv.2 ∧ kv.2 ≠ "" := by
  simp only [localStep]
  by_cases h1 : au.2 = ""
  · rw [if_pos h1]
    exact hlm
  · rw [if_neg h1]
    by_cases h2 : opTruthy (dget um (canonUrl au.2)) = true
    · rw [if_pos h2]
      cases hm : dget um (canonUrl au.2) with
      | none =>
        rw [hm] at h2
        simp [opTruthy] at h2
      | some m =>
        have hm0 : ¬ m = "" := by
          rw [hm] at h2
          simpa [opTruthy] using h2
        show ∀ kv ∈ (if m = "" then lm else dset (dset lm au.2 m) (canonUrl au.2) m),
          dget um (canonUrl kv.1) = some kv.2 ∧ kv.2 ≠ ""
        rw [if_neg hm0]
        intro kv hkv
        rcases mem_dset hkv with rfl | hkv
        · constructor
          · show dget um (canonUrl (canonUrl au.2)) = some m
            rw [canon_canon]
            exact hm
          · exact hm0
        · rcases mem_dset hkv with rfl | hkv
          · exact ⟨hm, hm0⟩
          · exact hlm kv hkv
    · rw [if_neg h2]
      cases hm : dget um au.2 with
      | none => exact hlm
      | some m =>
        show ∀ kv ∈ (if m = "" then lm else dset (dset lm au.2 m) (canonUrl au.2) m),
          dget um (canonUrl kv.1) = some kv.2 ∧ kv.2 ≠ ""
        by_cases hm0 : m = ""
        · rw [if_pos hm0]
          exact hlm
        · exfalso
          have hmem := dget_mem hm
          have hhttp : isHttpUrl au.2 = true := hkeys _ hmem
          apply h2
          rw [canon_of_http hhttp, hm]
          simpa [opTruthy] using hm0

theorem localMap_values (um : List (String × String))
    (hkeys : ∀ kv ∈ um, isHttpUrl kv.1 = true) (tag : Attrs) :
    ∀ kv ∈ localMapForTag um tag, dget um (canonUrl kv.1) = some kv.2 ∧ kv.2 ≠ "" := by
  unfold localMapForTag
  exact foldl_preserve
    (fun lm : Attrs => ∀ kv ∈ lm, dget um (canonUrl kv.1) = some kv.2 ∧ kv.2 ≠ "")
    (localStep um) (extract_image_urls_from_tag tag) [] (by simp)
    (fun lm au hlm _ => localStep_values um hkeys lm au hlm)

theorem dget_dset_isSome {α : Type} (l : List (String × α)) (k k' : String) (v : α)
    (h : (dget l k').isSome = true) : (dget (dset l k v) k').isSome = true := by
  by_cases hk : k' = k
  · subst hk
    simp [dget_dset_self]
  · rw [dget_dset_ne _ _ hk]
    exact h

theorem localStep_preserves_isSome (um : List (String × String)) (lm : Attrs)
    (au : String × String) (k : String) (h : (dget lm k).isSome = true) :
    (dget (localStep um lm au) k).isSome = true := by
  simp only [localStep]
  by_cases h1 : au.2 = ""
  · rw [if_pos h1]
    exact h
  · rw [if_neg h1]
    cases hm : (if opTruthy (dget um (canonUrl au.2)) = true then dget um (canonUrl au.2)
        else dget um au.2) with
    | none => exact h
    | some m =>
      show (dget (if m = "" then lm else dset (dset lm au.2 m) (canonUrl au.2) m) k).isSome = true
      by_cases hm0 : m = ""
      · rw [if_pos hm0]
        exact h
      · rw [if_neg hm0]
        exact dget_dset_isSome _ _ _ _ (dget_dset_isSome _ _ _ _ h)

theorem localFold_preserves_isSome (um : List (String × String)) :
    ∀ (l : List (String × String)) (lm : Attrs) (k : String),
      (dget lm k).isSome = true →
      (dget (l.foldl (localStep um) lm) k).isSome = true := by
  intro l
  induction l with
  | nil => exact fun lm k h => h
  | cons au aus ih =>
    intro lm k h
    rw [List.foldl_cons]
    exact ih _ k (localStep_preserves_isSome um lm au k h)

theorem localMap_present_aux (um : List (String × String)) (a raw : String) (m : String)
    (hne : raw ≠ "") (hm : dget um (canonUrl raw) = some m) (hm0 : m ≠ "") :
    ∀ (l : List (String × String)) (lm : Attrs),
      ((a, raw) ∈ l ∨
        ((dget lm raw).isSome = true ∧ (dget lm (canonUrl raw)).isSome = true)) →
      (dget (l.foldl (localStep um) lm) raw).isSome = true ∧
      (dget (l.foldl (localStep um) lm) (canonUrl raw)).isSome = true := by
  intro l
  induction l with
  | nil =>
    intro lm h
    exact h.resolve_left (by simp)
  | cons au aus ih =>
    intro lm h
    rw [List.foldl_cons]
    rcases h with h | h
    · rcases List.mem_cons.mp h with h | h
      · apply ih
        right
        rw [← h]
        have hstep : localStep um lm (a, raw) = dset (dset lm raw m) (canonUrl raw) m := by
          simp only [localStep]
          rw [if_neg hne]
          have ht : opTruthy (dget um (canonUrl raw)) = true := by
            rw [hm]
            simpa [opTruthy] using hm0
          rw [if_pos ht, hm]
          show (if m = "" then lm else dset (dset lm raw m) (canonUrl raw) m) =
            dset (dset lm raw m) (canonUrl raw) m
          rw [if_neg hm0]
        rw [hstep]
        constructor
        · exact dget_dset_isSome _ _ _ _ (by simp [dget_dset_self])
        · simp [dget_dset_self]
      · exact ih _ (Or.inl h)
    · apply ih
      right
      exact ⟨localStep_preserves_isSome um lm au raw h.1,
        localStep_preserves_isSome um lm au (canonUrl raw) h.2⟩

/-- On any element, a reference whose canonical URL resolves through a
url map with http(s) keys is bound in the element's local substitution map —
under both its raw and canonical spelling — to exactly `url_map(canonical)`. -/
theorem localMap_resolves (um : List (String × String))
    (hkeys : ∀ kv ∈ um, isHttpUrl kv.1 = true) (tag : Attrs) (a raw m : String)
    (hext : (a, raw) ∈ extract_image_urls_from_tag tag)
    (hm : dget um (canonUrl raw) = some m) (hm0 : m ≠ "") :
    dget (localMapForTag um tag) raw = some m ∧
    dget (localMapForTag um tag) (canonUrl raw) = some m := by
  have hne : raw ≠ "" := extract_nonempty tag (a, raw) hext
  have hp := localMap_present_aux um a raw m hne hm hm0
    (extract_image_urls_from_tag tag) [] (Or.inl hext)
  have hvals := localMap_values um hkeys tag
  constructor
  · obtain ⟨v, hv⟩ := Option.isSome_iff_exists.mp hp.1
    have hv' : dget (localMapForTag um tag) raw = some v := hv
    have h1 : dget um (canonUrl raw) = some v := (hvals (raw, v) (dget_mem hv')).1
    have hvm : v = m := by
      rw [hm] at h1
      injection h1 with hh
      exact hh.symm
    rw [hv', hvm]
  · obtain ⟨v, hv⟩ := Option.isSome_iff_exists.mp hp.2
    have hv' : dget (localMapForTag um tag) (canonUrl raw) = some v := hv
    have h1 : dget um (canonUrl (canonUrl raw)) = some v :=
      (hvals (canonUrl raw, v) (dget_mem hv')).1
    rw [canon_canon] at h1
    have hvm : v = m := by
      rw [hm] at h1
      injection h1 with hh
      exact hh.symm
    rw [hv', hvm]

/-! ### The download result and the manifest map cover only collected URLs -/

theorem dl_out_keys (dest_map : List (String × String)) (retries : Nat)
    (fetch : String → Nat → Option (List Nat × String))
    (guess : String → Option String) (writeOk : String → Bool) :
    ∀ (l : List String) (st : DlState) (kv : String × Option String),
      kv ∈ (l.foldl (dl_worker dest_map retries fetch guess writeOk) st).out →
      kv ∈ st.out ∨ kv.1 ∈ l := by
  intro l
  induction l with
  | nil => exact fun st kv h => Or.inl h
  | cons u us ih =>
    intro st kv h
    rw [List.foldl_cons] at h
    rcases ih _ kv h with h | h
    · obtain ⟨x, hx⟩ := dl_worker_out dest_map retries fetch guess writeOk st u
      rw [hx] at h
      rcases mem_dset h with rfl | h
      · exact Or.inr (List.mem_cons_self _ _)
      · exact Or.inl h
    · exact Or.inr (List.mem_cons_of_mem _ h)

theorem buildMaps_urlmap_keys :
    ∀ (result : List (String × Option String)) (ms : Maps) (kv : String × String),
      kv ∈ (result.foldl buildStep ms).url_map →
      kv ∈ ms.url_map ∨ kv.1 ∈ result.map (·.1) := by
  intro result
  induction result with
  | nil => exact fun ms kv h => Or.inl h
  | cons e es ih =>
    intro ms kv h
    rw [List.foldl_cons] at h
    rcases ih _ kv h with h | h
    · obtain ⟨k, o⟩ := e
      cases o with
      | none => exact Or.inl h
      | some saved =>
        simp only [buildStep] at h
        rcases mem_dset h with rfl | h
        · exact Or.inr (by simp)
        · exact Or.inl h
    · exact Or.inr (List.mem_cons_of_mem _ h)

/-- Claim C1: within one file's processing pass, (1) the URL → destination
assignment binds each canonical URL to exactly one destination path; (2) a
protocol-relative reference `//host/p` and `https://host/p` canonicalize to
the same URL, so they share one entry everywhere; (3) each URL is downloaded
at most once (its network request is issued at most once); and (4) on every
element, every reference — through whichever attribute — whose canonical URL
resolved is bound in that element's substitution map, under both its raw and
canonical spelling, to exactly `url_map(canonical URL)`, so every occurrence
of the same canonical URL is rewritten to the identical local relative
path. -/
theorem claimC1_dedup (assets_dir : String) (frags : List (List Attrs)) (retries : Nat)
    (fetch : String → Nat → Option (List Nat × String))
    (guess : String → Option String) (writeOk : String → Bool) (disk : Disk) :
    (∀ c d₁ d₂,
      (c, d₁) ∈ (process_frags assets_dir frags retries fetch guess writeOk disk).url_to_dest →
      (c, d₂) ∈ (process_frags assets_dir frags retries fetch guess writeOk disk).url_to_dest →
      d₁ = d₂) ∧
    (∀ s, canonUrl ("//" ++ s) = "https://" ++ s ∧
      canonUrl ("https://" ++ s) = "https://" ++ s) ∧
    (∀ u,
      (process_frags assets_dir frags retries fetch guess writeOk disk).requests.count u ≤ 1) ∧
    (∀ tag a raw m, (a, raw) ∈ extract_image_urls_from_tag tag →
      dget (process_frags assets_dir frags retries fetch guess writeOk disk).url_map
        (canonUrl raw) = some m →
      m ≠ "" →
      dget (localMapForTag
        (process_frags assets_dir frags retries fetch guess writeOk disk).url_map tag)
        raw = some m ∧
      dget (localMapForTag
        (process_frags assets_dir frags retries fetch guess writeOk disk).url_map tag)
        (canonUrl raw) = some m) := by
  have hinv := collectUrls_inv assets_dir frags
  by_cases hutd : collectUrls assets_dir frags = []
  · have hR : process_frags assets_dir frags retries fetch guess writeOk disk =
        ⟨[], [], [], disk, [], [], frags⟩ := by
      simp only [process_frags]
      rw [hutd]
      rfl
    rw [hR]
    refine ⟨?_, canon_protocol_relative, ?_, ?_⟩
    · intro c d₁ d₂ h1 _
      simp at h1
    · intro u
      simp
    · intro tag a raw m _ hm _
      simp [dget] at hm
  · have hR : process_frags assets_dir frags retries fetch guess writeOk disk =
        ⟨collectUrls assets_dir frags,
         (download_all (dkeys (collectUrls assets_dir frags)) (collectUrls assets_dir frags)
            retries fetch guess writeOk disk).out,
         (download_all (dkeys (collectUrls assets_dir frags)) (collectUrls assets_dir frags)
            retries fetch guess writeOk disk).requests,
         (download_all (dkeys (collectUrls assets_dir frags)) (collectUrls assets_dir frags)
            retries fetch guess writeOk disk).disk,
         (buildMaps (download_all (dkeys (collectUrls assets_dir frags))
            (collectUrls assets_dir frags) retries fetch guess writeOk disk).out).url_map,
         (buildMaps (download_all (dkeys (collectUrls assets_dir frags))
            (collectUrls assets_dir frags) retries fetch guess writeOk disk).out).failed,
         frags.map (fun tags => tags.map (rewriteTag
           (buildMaps (download_all (dkeys (collectUrls assets_dir frags))
             (collectUrls assets_dir frags) retries fetch guess writeOk disk).out).url_map))⟩ := by
      simp only [process_frags]
      rw [if_neg hutd]
    rw [hR]
    refine ⟨?_, canon_protocol_relative, ?_, ?_⟩
    · intro c d₁ d₂ h1 h2
      have e1 := (hinv.2 _ h1).2
      have e2 := (hinv.2 _ h2).2
      exact e1.trans e2.symm
    · intro u
      obtain ⟨r, hsub, heq⟩ := download_fold_requests (collectUrls assets_dir frags) retries
        fetch guess writeOk (sortStrings (dkeys (collectUrls assets_dir frags)))
        ⟨[], [], disk⟩
      have hreq : (download_all (dkeys (collectUrls assets_dir frags))
          (collectUrls assets_dir frags) retries fetch guess writeOk disk).requests = r := by
        unfold download_all
        rw [heq]
        simp
      rw [hreq]
      have hnd : (sortStrings (dkeys (collectUrls assets_dir frags))).Nodup :=
        ((sortStrings_perm _).nodup_iff).mpr hinv.1
      exact Nat.le_trans (List.Sublist.count_le hsub u)
        (List.nodup_iff_count_le_one.mp hnd u)
    · intro tag a raw m hext hm hm0
      apply localMap_resolves _ _ tag a raw m hext hm hm0
      intro kv hkv
      rcases buildMaps_urlmap_keys _ ⟨[], []⟩ kv hkv with h | h
      · simp at h
      · obtain ⟨e, he, hek⟩ := List.mem_map.mp h
        rcases dl_out_keys (collectUrls assets_dir frags) retries fetch guess writeOk
          (sortStrings (dkeys (collectUrls assets_dir frags))) ⟨[], [], disk⟩ e he with h' | h'
        · simp at h'
        · have hk : kv.1 ∈ dkeys (collectUrls assets_dir frags) := by
            rw [← hek]
            exact mem_sortStrings.mp h'
          obtain ⟨v, hv⟩ := Option.isSome_iff_exists.mp ((mem_dkeys_iff _ _).mp hk)
          exact (hinv.2 _ (dget_mem hv)).1

/-- Witness for C1: a protocol-relative `data-src` on one element and the
https form in `src` on another element of a different fragment share one
collected entry, one request, and one local replacement path. -/
theorem claimC1_witness :
    (process_frags "assets/f" [[[("data-src", "//h/p.png")]], [[("src", "https://h/p.png")]]]
      2 (fun _ _ => some ([1], "image/png")) (fun _ => none) (fun _ => true)
      []).url_to_dest = [("https://h/p.png", "assets/f/p-3d87eaf8.png")] ∧
    (process_frags "assets/f" [[[("data-src", "//h/p.png")]], [[("src", "https://h/p.png")]]]
      2 (fun _ _ => some ([1], "image/png")) (fun _ => none) (fun _ => true)
      []).requests.count "https://h/p.png" ≤ 1 ∧
    dget (localMapForTag
      (process_frags "assets/f" [[[("data-src", "//h/p.png")]], [[("src", "https://h/p.png")]]]
        2 (fun _ _ => some ([1], "image/png")) (fun _ => none) (fun _ => true) []).url_map
      [("data-src", "//h/p.png")]) "//h/p.png" = some "assets/f/p-3d87eaf8.png" ∧
    dget (localMapForTag
      (process_frags "assets/f" [[[("data-src", "//h/p.png")]], [[("src", "https://h/p.png")]]]
        2 (fun _ _ => some ([1], "image/png")) (fun _ => none) (fun _ => true) []).url_map
      [("src", "https://h/p.png")]) "https://h/p.png" = some "assets/f/p-3d87eaf8.png" := by
  have h := claimC1_dedup "assets/f"
    [[[("data-src", "//h/p.png")]], [[("src", "https://h/p.png")]]] 2
    (fun _ _ => some ([1], "image/png")) (fun _ => none) (fun _ => true) []
  refine ⟨rfl, h.2.2.1 "https://h/p.png", ?_, ?_⟩
  · exact (h.2.2.2 [("data-src", "//h/p.png")] "data-src" "//h/p.png"
      "assets/f/p-3d87eaf8.png" (by decide) (by rfl) (by decide)).1
  · exact (h.2.2.2 [("src", "https://h/p.png")] "src" "https://h/p.png"
      "assets/f/p-3d87eaf8.png" (by decide) (by rfl) (by decide)).1

/-! ## Claim C3: srcset fidelity

The claim-side reading of a srcset attribute: a list of candidates, each a
URL token with an optional descriptor, rendered with single spaces and
`", "` separators.  The theorem compares the source's `rewrite_srcset`
against per-candidate substitution on the rendered string. -/

/-- Render one candidate: `url` or `url descriptor`. -/
def renderCand (c : String × String) : String :=
  if c.2 = "" then c.1 else c.1 ++ " " ++ c.2

/-- Render a whole srcset attribute value. -/
def renderSrcset (cs : List (String × String)) : String :=
  pyJoin ", " (cs.map renderCand)

/-- A srcset URL token: non-empty, no whitespace, no comma. -/
def tokenOk (u : String) : Prop :=
  u.data ≠ [] ∧ ∀ ch ∈ u.data, pyIsSpace ch = false ∧ ch ≠ ','

/-- A well-formed descriptor: comma-free, whitespace-normalized (it equals
the single-space join of its own tokens) and without outer whitespace. -/
def descOk (d : String) : Prop :=
  (∀ ch ∈ d.data, ch ≠ ',') ∧ pyJoin " " (pyWords d) = d ∧
  d.data.head?.all (fun a => !pyIsSpace a) = true ∧
  d.data.getLast?.all (fun a => !pyIsSpace a) = true

def candOk (c : String × String) : Prop := tokenOk c.1 ∧ descOk c.2

/-- A well-formed local replacement path: non-empty, no outer whitespace. -/
def valOk (v : String) : Prop :=
  v.data ≠ [] ∧ v.data.head?.all (fun a => !pyIsSpace a) = true ∧
  v.data.getLast?.all (fun a => !pyIsSpace a) = true

instance decTokenOk (u : String) : Decidable (tokenOk u) := by
  unfold tokenOk
  infer_instance

instance decDescOk (d : String) : Decidable (descOk d) := by
  unfold descOk
  infer_instance

instance decCandOk (c : String × String) : Decidable (candOk c) := by
  unfold candOk
  infer_instance

instance decValOk (v : String) : Decidable (valOk v) := by
  unfold valOk
  infer_instance

/-- What the claim says one candidate becomes: the local path with the
original descriptor appended when the URL resolves, the original candidate
text otherwise. -/
def entryOf (um : Attrs) (c : String × String) : String :=
  match dget um c.1 with
  | some m => if c.2 = "" then m else m ++ " " ++ c.2
  | none => renderCand c

/-! ### Split/strip/words lemmas -/

theorem str_eta (s : String) : String.mk s.data = s := rfl

theorem str_append_assoc (a b c : String) : (a ++ b) ++ c = a ++ (b ++ c) := by
  apply str_ext
  simp [str_data_append]

theorem splitOnC_ne_nil (sep : Char) (l : List Char) : splitOnC sep l ≠ [] := by
  cases l with
  | nil => simp [splitOnC]
  | cons c rest =>
    simp only [splitOnC]
    cases splitOnC sep rest with
    | nil => simp
    | cons h t => by_cases hc : c = sep <;> simp [hc]

theorem splitOnC_no_sep (sep : Char) (l : List Char) (h : sep ∉ l) :
    splitOnC sep l = [l] := by
  induction l with
  | nil => rfl
  | cons c rest ih =>
    have hc : c ≠ sep := fun hh => h (hh ▸ List.mem_cons_self c rest)
    have hr := ih (fun hh => h (List.mem_cons_of_mem _ hh))
    simp only [splitOnC, hr]
    rw [if_neg hc]

theorem splitOnC_append (sep : Char) (xs ys : List Char) (h : sep ∉ xs) :
    splitOnC sep (xs ++ sep :: ys) = xs :: splitOnC sep ys := by
  induction xs with
  | nil =>
    simp only [List.nil_append, splitOnC]
    cases hys : splitOnC sep ys with
    | nil => exact absurd hys (splitOnC_ne_nil sep ys)
    | cons hh tt => simp
  | cons c rest ih =>
    have hc : c ≠ sep := fun hh => h (hh ▸ List.mem_cons_self c rest)
    have hr := ih (fun hh => h (List.mem_cons_of_mem _ hh))
    show (match splitOnC sep (rest ++ sep :: ys) with
      | [] => [[c]]
      | hh :: tt => if c = sep then [] :: hh :: tt else (c :: hh) :: tt) =
      (c :: rest) :: splitOnC sep ys
    rw [hr]
    show (if c = sep then [] :: rest :: splitOnC sep ys
      else (c :: rest) :: splitOnC sep ys) = (c :: rest) :: splitOnC sep ys
    rw [if_neg hc]

theorem head?_reverse' {α : Type} (l : List α) : l.reverse.head? = l.getLast? := by
  induction l with
  | nil => rfl
  | cons a t ih =>
    rw [List.reverse_cons]
    cases hrev : t.reverse with
    | nil =>
      have ht : t = [] := by simpa using congrArg List.reverse hrev
      subst ht
      rfl
    | cons b t' =>
      have ht : t ≠ [] := by
        intro hh
        rw [hh] at hrev
        simp at hrev
      rw [show a :: t = [a] ++ t from rfl, List.getLast?_append_of_ne_nil [a] ht, ← ih, hrev]
      rfl

theorem stripC_cons_space {c : Char} (l : List Char) (hc : pyIsSpace c = true) :
    stripC (c :: l) = stripC l := by
  simp [stripC, List.dropWhile_cons, hc]

theorem stripC_no_outer (l : List Char)
    (h1 : l.head?.all (fun a => !pyIsSpace a) = true)
    (h2 : l.getLast?.all (fun a => !pyIsSpace a) = true) :
    stripC l = l := by
  have hd : l.dropWhile pyIsSpace = l := by
    cases l with
    | nil => rfl
    | cons a t =>
      have ha : pyIsSpace a = false := by simpa using h1
      simp [List.dropWhile_cons, ha]
  have hrev : l.reverse.dropWhile pyIsSpace = l.reverse := by
    cases hre : l.reverse with
    | nil => rfl
    | cons b t =>
      have hb0 : l.getLast? = some b := by rw [← head?_reverse', hre]; rfl
      have hb : pyIsSpace b = false := by
        rw [hb0] at h2
        simpa using h2
      simp [List.dropWhile_cons, hb]
  rw [stripC, hd, hrev, List.reverse_reverse]

theorem wordsCAux_nonspace_lead : ∀ (u acc l : List Char),
    (∀ ch ∈ u, pyIsSpace ch = false) →
    wordsCAux acc (u ++ l) = wordsCAux (u.reverse ++ acc) l := by
  intro u
  induction u with
  | nil =>
    intro acc l _
    simp
  | cons c t ih =>
    intro acc l h
    have hc : pyIsSpace c = false := h c (List.mem_cons_self c t)
    show (if pyIsSpace c = true then
        (if acc = [] then wordsCAux [] (t ++ l) else acc.reverse :: wordsCAux [] (t ++ l))
      else wordsCAux (c :: acc) (t ++ l)) = wordsCAux ((c :: t).reverse ++ acc) l
    rw [hc]
    simp only [Bool.false_eq_true, if_false]
    rw [ih (c :: acc) l (fun ch hch => h ch (List.mem_cons_of_mem _ hch))]
    congr 1
    simp

theorem wordsC_token_space (u d : List Char) (hne : u ≠ [])
    (hns : ∀ ch ∈ u, pyIsSpace ch = false) :
    wordsC (u ++ ' ' :: d) = u :: wordsC d := by
  unfold wordsC
  rw [wordsCAux_nonspace_lead u [] (' ' :: d) hns]
  rw [List.append_nil]
  have hrne : u.reverse ≠ [] := by simpa using hne
  simp [wordsCAux, hrne, show pyIsSpace ' ' = true from rfl]

theorem wordsC_token (u : List Char) (hne : u ≠ [])
    (hns : ∀ ch ∈ u, pyIsSpace ch = false) :
    wordsC u = [u] := by
  unfold wordsC
  have h := wordsCAux_nonspace_lead u [] [] hns
  rw [List.append_nil] at h
  rw [h, List.append_nil]
  have hrne : u.reverse ≠ [] := by simpa using hne
  simp [wordsCAux, hrne]

/-! ### Facts about rendered candidates -/

theorem renderCand_data_desc {c : String × String} (h2 : c.2 ≠ "") :
    (renderCand c).data = c.1.data ++ ' ' :: c.2.data := by
  unfold renderCand
  rw [if_neg h2, str_data_append, str_data_append]
  simp

theorem renderCand_data_nodesc {c : String × String} (h2 : c.2 = "") :
    (renderCand c).data = c.1.data := by
  unfold renderCand
  rw [if_pos h2]

theorem str_ne_empty_of_data {s : String} (h : s.data ≠ []) : s ≠ "" := by
  intro hh
  rw [hh] at h
  exact h rfl

theorem renderCand_ne_empty {c : String × String} (hc : candOk c) : renderCand c ≠ "" := by
  apply str_ne_empty_of_data
  by_cases h2 : c.2 = ""
  · rw [renderCand_data_nodesc h2]
    exact hc.1.1
  · rw [renderCand_data_desc h2]
    simp [hc.1.1]

theorem renderCand_no_comma {c : String × String} (hc : candOk c) :
    ',' ∉ (renderCand c).data := by
  by_cases h2 : c.2 = ""
  · rw [renderCand_data_nodesc h2]
    intro hmem
    exact ((hc.1.2 ',' hmem).2) rfl
  · rw [renderCand_data_desc h2]
    intro hmem
    rcases List.mem_append.mp hmem with hmem | hmem
    · exact ((hc.1.2 ',' hmem).2) rfl
    · rcases List.mem_cons.mp hmem with hmem | hmem
      · exact absurd hmem.symm (by decide)
      · exact (hc.2.1 ',' hmem) rfl

theorem renderCand_head {c : String × String} (hc : candOk c) :
    (renderCand c).data.head?.all (fun a => !pyIsSpace a) = true := by
  obtain ⟨u1, rest, hu⟩ : ∃ a t, c.1.data = a :: t := by
    cases hd : c.1.data with
    | nil => exact absurd hd hc.1.1
    | cons a t => exact ⟨a, t, rfl⟩
  have hns : pyIsSpace u1 = false := (hc.1.2 u1 (by rw [hu]; exact List.mem_cons_self _ _)).1
  by_cases h2 : c.2 = ""
  · rw [renderCand_data_nodesc h2, hu]
    simpa using hns
  · rw [renderCand_data_desc h2, hu]
    simpa using hns

theorem renderCand_last {c : String × String} (hc : candOk c) :
    (renderCand c).data.getLast?.all (fun a => !pyIsSpace a) = true := by
  by_cases h2 : c.2 = ""
  · rw [renderCand_data_nodesc h2]
    cases hl : c.1.data.getLast? with
    | none => simp
    | some a =>
      have hmem : a ∈ c.1.data := List.mem_of_mem_getLast? (by rw [hl]; rfl)
      simpa using (hc.1.2 a hmem).1
  · rw [renderCand_data_desc h2]
    have hdne : c.2.data ≠ [] := fun hh => h2 (str_ext hh)
    rw [List.getLast?_append_of_ne_nil _ (by simp : (' ' :: c.2.data) ≠ [])]
    rw [show (' ' :: c.2.data) = [' '] ++ c.2.data from rfl,
      List.getLast?_append_of_ne_nil _ hdne]
    exact hc.2.2.2.2

theorem pyStrip_renderCand {c : String × String} (hc : candOk c) :
    pyStrip (renderCand c) = renderCand c := by
  unfold pyStrip
  rw [stripC_no_outer _ (renderCand_head hc) (renderCand_last hc), str_eta]

theorem pyStrip_space_renderCand {c : String × String} (hc : candOk c) :
    pyStrip (" " ++ renderCand c) = renderCand c := by
  unfold pyStrip
  rw [str_data_append, show (" ").data = [' '] from rfl, List.singleton_append,
    stripC_cons_space (renderCand c).data (show pyIsSpace ' ' = true from rfl),
    stripC_no_outer _ (renderCand_head hc) (renderCand_last hc), str_eta]

theorem pyWords_renderCand_desc {c : String × String} (hc : candOk c) (h2 : c.2 ≠ "") :
    pyWords (renderCand c) = c.1 :: pyWords c.2 := by
  unfold pyWords
  rw [renderCand_data_desc h2,
    wordsC_token_space c.1.data c.2.data hc.1.1 (fun ch hch => (hc.1.2 ch hch).1)]
  rw [List.map_cons, str_eta]

theorem pyWords_renderCand_nodesc {c : String × String} (hc : candOk c) (h2 : c.2 = "") :
    pyWords (renderCand c) = [c.1] := by
  unfold pyWords
  rw [renderCand_data_nodesc h2,
    wordsC_token c.1.data hc.1.1 (fun ch hch => (hc.1.2 ch hch).1)]
  rw [List.map_cons, str_eta]
  rfl

theorem pyStrip_val_trailing {m : String} (hv : valOk m) :
    pyStrip (m ++ " " ++ "") = m := by
  unfold pyStrip
  rw [str_data_append, str_data_append]
  rw [show ("" : String).data = [] from rfl, show (" ").data = [' '] from rfl, List.append_nil]
  have hd : (m.data ++ [' ']).dropWhile pyIsSpace = m.data ++ [' '] := by
    cases hm : m.data with
    | nil => exact absurd hm hv.1
    | cons a t =>
      have ha : pyIsSpace a = false := by
        have := hv.2.1
        rw [hm] at this
        simpa using this
      simp [List.dropWhile_cons, ha]
  rw [stripC, hd]
  rw [List.reverse_append]
  have hrev : (([' '].reverse ++ m.data.reverse).dropWhile pyIsSpace) = m.data.reverse := by
    simp only [List.reverse_singleton, List.singleton_append, List.dropWhile_cons]
    rw [if_pos (show pyIsSpace ' ' = true from rfl)]
    cases hre : m.data.reverse with
    | nil => rfl
    | cons b t =>
      have hb0 : m.data.getLast? = some b := by rw [← head?_reverse', hre]; rfl
      have hb : pyIsSpace b = false := by
        have := hv.2.2
        rw [hb0] at this
        simpa using this
      simp [List.dropWhile_cons, hb]
  rw [hrev, List.reverse_reverse, str_eta]

theorem pyStrip_val_desc {m : String} (hv : valOk m) {d : String} (hd2 : d ≠ "")
    (hdesc : descOk d) : pyStrip (m ++ " " ++ d) = m ++ " " ++ d := by
  unfold pyStrip
  have hdata : (m ++ " " ++ d).data = m.data ++ [' '] ++ d.data := by
    rw [str_data_append, str_data_append]
  rw [hdata]
  have hdne : d.data ≠ [] := fun hh => hd2 (str_ext hh)
  have hh1 : (m.data ++ [' '] ++ d.data).head?.all (fun a => !pyIsSpace a) = true := by
    have hmne : m.data ≠ [] := hv.1
    rw [List.append_assoc, List.head?_append_of_ne_nil _ hmne]
    exact hv.2.1
  have hh2 : (m.data ++ [' '] ++ d.data).getLast?.all (fun a => !pyIsSpace a) = true := by
    rw [List.getLast?_append_of_ne_nil _ hdne]
    exact hdesc.2.2.2
  rw [stripC_no_outer _ hh1 hh2]
  apply str_ext
  rw [str_data_append, str_data_append]

/-! ### Per-candidate and whole-attribute behaviour of the rewriter -/

theorem srcsetStep_is_entry (um : Attrs) (hum : ∀ kv ∈ um, valOk kv.2)
    (c : String × String) (hc : candOk c) (acc : List String) (part : String)
    (hstrip : pyStrip part = renderCand c) :
    srcsetStep um acc part = acc ++ [entryOf um c] := by
  simp only [srcsetStep]
  rw [hstrip, if_neg (renderCand_ne_empty hc)]
  by_cases h2 : c.2 = ""
  · rw [pyWords_renderCand_nodesc hc h2]
    show (match dget um c.1 with
      | some mapped =>
        if mapped = "" then acc ++ [renderCand c]
        else acc ++ [pyStrip (mapped ++ " " ++ pyJoin " " ([] : List String))]
      | none => acc ++ [renderCand c]) = acc ++ [entryOf um c]
    cases hg : dget um c.1 with
    | none =>
      simp only [entryOf, hg]
    | some m =>
      have hv : valOk m := hum (c.1, m) (dget_mem hg)
      have hm0 : m ≠ "" := str_ne_empty_of_data hv.1
      simp only [entryOf, hg, if_neg hm0, if_pos h2]
      rw [show pyJoin " " ([] : List String) = "" from rfl, pyStrip_val_trailing hv]
  · rw [pyWords_renderCand_desc hc h2]
    show (match dget um c.1 with
      | some mapped =>
        if mapped = "" then acc ++ [renderCand c]
        else acc ++ [pyStrip (mapped ++ " " ++ pyJoin " " (pyWords c.2))]
      | none => acc ++ [renderCand c]) = acc ++ [entryOf um c]
    cases hg : dget um c.1 with
    | none =>
      simp only [entryOf, hg]
    | some m =>
      have hv : valOk m := hum (c.1, m) (dget_mem hg)
      have hm0 : m ≠ "" := str_ne_empty_of_data hv.1
      simp only [entryOf, hg, if_neg hm0, if_neg h2]
      rw [hc.2.2.1, pyStrip_val_desc hv h2 hc.2]

theorem splitOnC_renderSrcset : ∀ (cs : List (String × String)) (c : String × String),
    (∀ x ∈ c :: cs, candOk x) →
    splitOnC ',' (renderSrcset (c :: cs)).data =
      (renderCand c).data :: cs.map (fun c' => ' ' :: (renderCand c').data) := by
  intro cs
  induction cs with
  | nil =>
    intro c hwf
    have h1 : (renderSrcset [c]).data = (renderCand c).data := rfl
    rw [h1, splitOnC_no_sep ',' _ (renderCand_no_comma (hwf c (List.mem_cons_self _ _)))]
    rfl
  | cons c' cs' ih =>
    intro c hwf
    have hjoin : (renderSrcset (c :: c' :: cs')).data =
        (renderCand c).data ++ ',' :: ' ' :: (renderSrcset (c' :: cs')).data := by
      show ((renderCand c).data ++ (", ").data) ++
          joinSepC (", ").data (((c' :: cs').map renderCand).map String.data) =
        (renderCand c).data ++ ',' :: ' ' :: (renderSrcset (c' :: cs')).data
      rw [List.append_assoc]
      rfl
    rw [hjoin, splitOnC_append ',' _ _ (renderCand_no_comma (hwf c (List.mem_cons_self _ _)))]
    have hih := ih c' (fun x hx => hwf x (List.mem_cons_of_mem _ hx))
    simp only [splitOnC, hih]
    rw [if_neg (by decide : ¬ (' ' = ','))]
    rfl

theorem pySplit_renderSrcset (cs : List (String × String)) (c : String × String)
    (hwf : ∀ x ∈ c :: cs, candOk x) :
    pySplit (renderSrcset (c :: cs)) ',' =
      renderCand c :: cs.map (fun c' => " " ++ renderCand c') := by
  unfold pySplit
  rw [splitOnC_renderSrcset cs c hwf]
  rw [List.map_cons, str_eta, List.map_map]
  congr 1

theorem foldl_entries (um : Attrs) (hum : ∀ kv ∈ um, valOk kv.2) :
    ∀ (cs : List (String × String)) (acc : List String), (∀ c ∈ cs, candOk c) →
      (cs.map (fun c' => " " ++ renderCand c')).foldl (srcsetStep um) acc =
        acc ++ cs.map (entryOf um) := by
  intro cs
  induction cs with
  | nil =>
    intro acc _
    simp
  | cons c cs' ih =>
    intro acc hwf
    rw [List.map_cons, List.foldl_cons,
      srcsetStep_is_entry um hum c (hwf c (List.mem_cons_self _ _)) acc _
        (pyStrip_space_renderCand (hwf c (List.mem_cons_self _ _))),
      ih (acc ++ [entryOf um c]) (fun x hx => hwf x (List.mem_cons_of_mem _ hx))]
    simp

/-- Claim C3: rewriting a rendered srcset attribute substitutes each
candidate whose URL is in the url map by the local path followed by the
candidate's original descriptor, and leaves every other candidate as its
original text, rejoined with `", "`. -/
theorem claimC3_srcset_fidelity (um : Attrs) (cs : List (String × String))
    (hcs : ∀ c ∈ cs, candOk c) (hum : ∀ kv ∈ um, valOk kv.2) :
    rewrite_srcset um (renderSrcset cs) = pyJoin ", " (cs.map (entryOf um)) := by
  cases cs with
  | nil => rfl
  | cons c cs' =>
    unfold rewrite_srcset
    rw [pySplit_renderSrcset cs' c hcs, List.foldl_cons,
      srcsetStep_is_entry um hum c (hcs c (List.mem_cons_self _ _)) [] _
        (pyStrip_renderCand (hcs c (List.mem_cons_self _ _))),
      foldl_entries um hum cs' _ (fun x hx => hcs x (List.mem_cons_of_mem _ hx))]
    simp

/-- Witness for C3: the specification's own example — only `a.jpg` resolved;
descriptors preserved, the failed entry left as its original text. -/
theorem claimC3_witness :
    renderSrcset [("a.jpg", "1x"), ("b.jpg", "2x")] = "a.jpg 1x, b.jpg 2x" ∧
    rewrite_srcset [("a.jpg", "assets/f/a-11111111.jpg")] "a.jpg 1x, b.jpg 2x" =
      "assets/f/a-11111111.jpg 1x, b.jpg 2x" := by
  constructor
  · rfl
  · exact claimC3_srcset_fidelity [("a.jpg", "assets/f/a-11111111.jpg")]
      [("a.jpg", "1x"), ("b.jpg", "2x")] (by decide) (by decide)

/-! ## Claim C9: per-file failure isolation -/

/-- Claim C9: any error raised while processing one JSON file — including a
malformed-JSON parse — is caught at the file-pipeline boundary
(`file_worker`'s `try`/`except`) and becomes that file's logged per-file
result; every file of the run still appears in the results, and each file's
outcome is exactly what its own standalone processing yields, independent of
its siblings — so a sibling with valid content is fully processed and its
manifest produced even when another file's JSON is malformed. -/
theorem claimC9_failure_isolation (parseHtml : String → List Attrs)
    (render : List Attrs → String) (files : List (String × String × Option Json))
    (retries : Nat) (fetch : String → Nat → Option (List Nat × String))
    (guess : String → Option String) (writeOk : String → Bool) (disk : Disk) :
    (main_async parseHtml render files retries fetch guess writeOk disk).map (·.1) =
      files.map (·.1) ∧
    (∀ p st pj, (p, st, pj) ∈ files →
      (p, (process_json_file parseHtml render st pj retries fetch guess writeOk disk).1) ∈
        main_async parseHtml render files retries fetch guess writeOk disk) ∧
    (∀ p st, (p, st, (none : Option Json)) ∈ files →
      (p, FileResult.errored) ∈
        main_async parseHtml render files retries fetch guess writeOk disk) := by
  refine ⟨?_, ?_, ?_⟩
  · unfold main_async
    rw [List.map_map]
    rfl
  · intro p st pj hmem
    exact List.mem_map_of_mem _ hmem
  · intro p st hmem
    have h := List.mem_map_of_mem
      (fun f : String × String × Option Json =>
        (f.1, (process_json_file parseHtml render f.2.1 f.2.2 retries fetch guess writeOk
          disk).1)) hmem
    exact h

/-- Witness for C9: a run over one malformed file and one valid file; the
malformed one is reported `errored`, the valid one still yields its complete
result (its manifest maps the downloaded URL to its local path). -/
theorem claimC9_witness :
    (("a.json", FileResult.errored) ∈
      main_async (fun _ => [[("src", "https://h/p.png")]]) (fun _ => "R")
        [("a.json", "a", none),
         ("b.json", "b", some (Json.obj [("q", Json.str "<img src='https://h/p.png'>")]))]
        2 (fun _ _ => some ([1], "image/png")) (fun _ => some ".png") (fun _ => true) []) ∧
    (("b.json",
      (process_json_file (fun _ => [[("src", "https://h/p.png")]]) (fun _ => "R") "b"
        (some (Json.obj [("q", Json.str "<img src='https://h/p.png'>")])) 2
        (fun _ _ => some ([1], "image/png")) (fun _ => some ".png") (fun _ => true) []).1) ∈
      main_async (fun _ => [[("src", "https://h/p.png")]]) (fun _ => "R")
        [("a.json", "a", none),
         ("b.json", "b", some (Json.obj [("q", Json.str "<img src='https://h/p.png'>")]))]
        2 (fun _ _ => some ([1], "image/png")) (fun _ => some ".png") (fun _ => true) []) ∧
    (process_json_file (fun _ => [[("src", "https://h/p.png")]]) (fun _ => "R") "b"
        (some (Json.obj [("q", Json.str "<img src='https://h/p.png'>")])) 2
        (fun _ _ => some ([1], "image/png")) (fun _ => some ".png") (fun _ => true) []).1 =
      FileResult.done ⟨[("https://h/p.png", "assets/b/p-3d87eaf8.png")], []⟩
        (Json.obj [("q", Json.str "R")]) := by
  refine ⟨?_, ?_, ?_⟩
  · exact (claimC9_failure_isolation (fun _ => [[("src", "https://h/p.png")]]) (fun _ => "R")
      [("a.json", "a", none),
       ("b.json", "b", some (Json.obj [("q", Json.str "<img src='https://h/p.png'>")]))]
      2 (fun _ _ => some ([1], "image/png")) (fun _ => some ".png") (fun _ => true) []).2.2
      "a.json" "a" (List.mem_cons_self _ _)
  · exact (claimC9_failure_isolation (fun _ => [[("src", "https://h/p.png")]]) (fun _ => "R")
      [("a.json", "a", none),
       ("b.json", "b", some (Json.obj [("q", Json.str "<img src='https://h/p.png'>")]))]
      2 (fun _ _ => some ([1], "image/png")) (fun _ => some ".png") (fun _ => true) []).2.1
      "b.json" "b" _ (List.mem_cons_of_mem _ (List.mem_cons_self _ _))
  · rfl

/-- Witness for the amended C6: same last segment, different hash prefixes,
distinct filenames. -/
theorem claimC6_witness :
    pyName (urlparse_path "http://h/a/image.png") =
      pyName (urlparse_path "http://h/b/image.png") ∧
    short_hash "http://h/a/image.png" 8 ≠ short_hash "http://h/b/image.png" 8 ∧
    safe_filename_from_url "http://h/a/image.png" 8 ≠
      safe_filename_from_url "http://h/b/image.png" 8 :=
  ⟨rfl, by decide,
    claimC6_same_name_distinct_hash "http://h/a/image.png" "http://h/b/image.png" rfl (by decide)⟩

end ImgDl
